import Mathlib

/-!
# Paillier cryptosystem (srderson/paillier): shallow embedding and verification

The Go sources `crypto.go` and `int.go` are embedded as Lean functions.

* `*big.Int` values are mathematical integers (`Int`); the methods of `math/big`
  that the sources call (`Exp`, `ModInverse`, `Mod`, `Div`, `Int64`) are modelled
  from their documented behaviour in the section "math/big".
* The random draws of `crypto/rand.Prime` are explicit arguments
  (`Except Unit _`, the error case being a failed draw).
* `*Int` objects (here `EncryptedInt`, since `Int` is taken) live in a store
  indexed by references, because every operator writes into its receiver `z`,
  which may be the same object as an operand.  Each object owns its `Cipher`
  big integer: ciphers of different objects are not shared, and scalars and
  key fields are never aliased with a cipher.
* A run-time panic, or the error returned by `NewKeyPair`, is `Except.error`.
-/

namespace Paillier

/-! ## Failures -/

/-- The ways in which the Go code stops without a result. -/
inductive Failure where
  /-- Message "public keys not equal" of `requirePublicKeysEqual`. -/
  | publicKeysNotEqual
  /-- Message "public key length %d is too small to encrypt %d" of `NewInt`. -/
  | plaintextTooLarge
  /-- Message "public key length %d is too small to decrypt cipher %d" of `Decrypt`. -/
  | cipherTooLarge
  /-- Message "division by 0" of `DivPlaintext`. -/
  | divisionByZero
  /-- Run-time panic: nil pointer dereference. -/
  | nilDereference
  /-- Run-time panic of `math/big`: division by zero in `Mod` or `Div`. -/
  | bigDivisionByZero
  /-- The random source failed: `NewKeyPair` returns the error, `NewInt` panics with it. -/
  | randomness
  deriving DecidableEq, Repr

/-! ## math/big -/

/-- Method `(*big.Int).Mod`: Euclidean modulus, a run-time panic when the modulus is zero. -/
def bigMod (x m : Int) : Except Failure Int :=
  if m = 0 then .error .bigDivisionByZero else .ok (x % m)

/-- Method `(*big.Int).Div`: Euclidean division, a run-time panic when the divisor is zero. -/
def bigDiv (x m : Int) : Except Failure Int :=
  if m = 0 then .error .bigDivisionByZero else .ok (x / m)

/-- Method `(*big.Int).Int64`: the low 64 bits of the magnitude read as a two-complement
`int64`, negated (with wrap-around) when the number is negative. -/
def bigInt64 (x : Int) : Int :=
  let low : Int := (x.natAbs % 2 ^ 64 : Nat)
  let v : Int := if low < 2 ^ 63 then low else low - 2 ^ 64
  let w : Int := if x < 0 then -v else v
  if w = 2 ^ 63 then -(2 ^ 63) else w

/-- Method `(*big.Int).ModInverse(g, n)`: the sign of `n` is dropped, a negative `g` is first
reduced modulo `n` (a division-by-zero panic when `n = 0`); `none` is the nil result returned
when `g` and `n` are not relatively prime, otherwise the inverse is the Bezout coefficient of
`g` brought into `[0, |n|)`. -/
def bigModInverse (g n : Int) : Except Failure (Option Int) :=
  let n1 : Int := (n.natAbs : Int)
  if g < 0 ∧ n1 = 0 then .error .bigDivisionByZero
  else
    let g1 : Int := if g < 0 then g % n1 else g
    if Int.gcd g1 n1 = 1 then .ok (some (Int.gcdA g1 n1 % n1)) else .ok none

/-- Magnitude and sign computed at the end of `(*big.Int).exp`: `xw` is the magnitude of the
base that is raised (the inverse when the exponent is negative), `xneg` the sign of the
original base, `yw` the magnitude of the exponent and `m` the modulus (zero: no reduction). -/
def bigExpCore (xw : Nat) (xneg : Bool) (yw : Nat) (m : Int) : Int :=
  let mw : Nat := m.natAbs
  let a : Nat := if mw = 0 then xw ^ yw else xw ^ yw % mw
  let neg : Bool := decide (a ≠ 0) && xneg && decide (yw % 2 = 1)
  if neg then (if mw ≠ 0 then ((mw - a : Nat) : Int) else -(a : Int)) else (a : Int)

/-- Method `(*big.Int).Exp(x, y, m)`, the value stored in the receiver: `x ^ y mod |m|`, with
`m = 0` meaning no reduction (and the result `1` for `y < 0`); for `y < 0` and `m ≠ 0` the
base is replaced by its inverse modulo `m`, and `none` is the nil result (receiver left
unchanged) when that inverse does not exist. -/
def bigExp (x y m : Int) : Option Int :=
  if y < 0 then
    if m = 0 then some 1
    else
      match bigModInverse x m with
      | .ok (some inv) => some (bigExpCore inv.natAbs (decide (x < 0)) y.natAbs m)
      | _ => none
  else some (bigExpCore x.natAbs (decide (x < 0)) y.natAbs m)

/-! ## crypto.go -/

/-- Struct `PublicKey`. -/
structure PublicKey where
  Length : Int
  N : Int
  NSq : Int
  G : Int
  deriving DecidableEq, Repr

/-- Struct `PrivateKey`; `U` is `none` when `ModInverse` returned nil. -/
structure PrivateKey where
  Length : Int
  PublicKey : PublicKey
  L : Int
  U : Option Int
  Threshold : Int
  deriving DecidableEq, Repr

/-- Function `NewKeyPair(keyLength, threshold)`; `draw1` and `draw2` are the outcomes of the
two calls of `rand.Prime(rand.Reader, keyLength)`. -/
def NewKeyPair (keyLength threshold : Int) (draw1 draw2 : Except Unit Nat) :
    Except Failure (PublicKey × PrivateKey) :=
  match draw1 with
  | .error _ => .error .randomness
  | .ok p1 =>
    match draw2 with
    | .error _ => .error .randomness
    | .ok p2 => do
      let n : Int := (p1 : Int) * (p2 : Int)
      let publicKey : PublicKey :=
        { Length := keyLength, N := n, NSq := n * n, G := n + 1 }
      -- (prime1 - 1) * (prime2 - 1)
      let l : Int := ((p1 : Int) - 1) * ((p2 : Int) - 1)
      let u ← bigModInverse l n
      let privateKey : PrivateKey :=
        { Length := keyLength, PublicKey := publicKey, L := l, U := u, Threshold := threshold }
      pure (publicKey, privateKey)

/-- Function `requirePublicKeysEqual(x, y)`; `none` is a nil pointer. -/
def requirePublicKeysEqual (x y : Option PublicKey) : Except Failure Unit :=
  match x, y with
  | some x, some y =>
    if x.Length = y.Length ∧ x.N = y.N ∧ x.NSq = y.NSq ∧ x.G = y.G then .ok ()
    else .error .publicKeysNotEqual
  | _, _ => .error .nilDereference

/-! ## int.go -/

/-- Struct `Int` of the source: `none` is a nil pointer, so `new(Int)` is `⟨none, none⟩`. -/
structure EncryptedInt where
  Cipher : Option Int
  PublicKey : Option PublicKey
  deriving DecidableEq, Repr

/-- The zero value `new(Int)`. -/
def EncryptedInt.new : EncryptedInt := ⟨none, none⟩

/-- References to `Int` objects. -/
abbrev Ref := Nat

/-- The `Int` objects in memory. -/
abbrev Store := Ref → EncryptedInt

/-- Assignment to the big integer `z.Cipher`. -/
def setCipher (s : Store) (z : Ref) (c : Int) : Store :=
  Function.update s z { s z with Cipher := some c }

/-- Assignment `z.PublicKey = k`. -/
def setPublicKey (s : Store) (z : Ref) (k : Option PublicKey) : Store :=
  Function.update s z { s z with PublicKey := k }

/-- Value of the big integer `x.Cipher`, a nil dereference when the pointer is nil. -/
def getCipher (s : Store) (x : Ref) : Except Failure Int :=
  match (s x).Cipher with
  | some c => .ok c
  | none => .error .nilDereference

/-- Dereference of `x.PublicKey`. -/
def getPublicKey (s : Store) (x : Ref) : Except Failure PublicKey :=
  match (s x).PublicKey with
  | some k => .ok k
  | none => .error .nilDereference

/-- Method `(z *Int).init()`. -/
def init (s : Store) (z : Ref) : Store :=
  if (s z).Cipher = none then setCipher s z 0 else s

/-- Function `NewInt(publicKey, x)`: the content of the object it returns; `draw` is the
outcome of `rand.Prime(rand.Reader, publicKey.Length)`. -/
def NewInt (publicKey : PublicKey) (x : Int) (draw : Except Unit Int) :
    Except Failure EncryptedInt :=
  match draw with
  | .error _ => .error .randomness
  | .ok r =>
    if publicKey.N ≤ x then .error .plaintextTooLarge
    else
      -- z.Cipher = new(big.Int); z.Cipher.Exp(G, x, NSq), the result of the call is dropped
      let c1 : Int := (bigExp publicKey.G x publicKey.NSq).getD 0
      -- rn := new(big.Int).Exp(r, N, NSq)
      match bigExp r publicKey.N publicKey.NSq with
      | none => .error .nilDereference
      | some rn => do
        -- z.Cipher.Mul(z.Cipher, rn).Mod(z.Cipher, NSq)
        let c3 ← bigMod (c1 * rn) publicKey.NSq
        pure { Cipher := some c3, PublicKey := some publicKey }

/-- Method `(z *Int).Decrypt(privateKey)`: the returned big integer (which is the object
`z.Cipher` itself) and the store afterwards. -/
def Decrypt (s : Store) (z : Ref) (privateKey : PrivateKey) : Except Failure (Int × Store) := do
  requirePublicKeysEqual (s z).PublicKey (some privateKey.PublicKey)
  let c ← getCipher s z
  if privateKey.PublicKey.NSq ≤ c then .error .cipherTooLarge
  else
    -- z.Cipher.Exp(z.Cipher, L, NSq)
    match bigExp c privateKey.L privateKey.PublicKey.NSq with
    | none => .error .nilDereference
    | some c1 =>
      -- .Sub(z.Cipher, one).Div(z.Cipher, N)
      let c2 : Int := c1 - 1
      match bigDiv c2 privateKey.PublicKey.N with
      | .error e => .error e
      | .ok c3 =>
        -- z.Cipher.Mul(z.Cipher, U)
        match privateKey.U with
        | none => .error .nilDereference
        | some u =>
          -- .Mod(_, N)
          match bigMod (c3 * u) privateKey.PublicKey.N with
          | .error e => .error e
          | .ok c5 =>
            -- check if m is negative
            let c6 : Int := if privateKey.Threshold < c5 then c5 - privateKey.PublicKey.N else c5
            .ok (c6, setCipher s z c6)

/-- Method `(z *Int).MulPlaintext(x, y)`. -/
def MulPlaintext (s : Store) (z x : Ref) (y : Int) : Except Failure Store := do
  let s := init s z
  -- z.Cipher.Exp(x.Cipher, y, x.PublicKey.NSq), the result of the call is dropped
  let cx ← getCipher s x
  let k ← getPublicKey s x
  let s := match bigExp cx y k.NSq with
    | some v => setCipher s z v
    | none => s
  pure (setPublicKey s z (s x).PublicKey)

/-- Method `(z *Int).Add(x, y)`. -/
def Add (s : Store) (z x y : Ref) : Except Failure Store := do
  requirePublicKeysEqual (s x).PublicKey (s y).PublicKey
  let s := init s z
  -- z.Cipher.Mul(x.Cipher, y.Cipher)
  let cx ← getCipher s x
  let cy ← getCipher s y
  let s := setCipher s z (cx * cy)
  -- .Mod(z.Cipher, x.PublicKey.NSq)
  let k ← getPublicKey s x
  let c ← bigMod (cx * cy) k.NSq
  let s := setCipher s z c
  pure (setPublicKey s z (s x).PublicKey)

/-- Method `(z *Int).Sub(x, y)`.  The pointer `x.Cipher` is read by `Mul` after the inner
call of `MulPlaintext` has written `z.Cipher`. -/
def Sub (s : Store) (z x y : Ref) : Except Failure Store := do
  requirePublicKeysEqual (s x).PublicKey (s y).PublicKey
  let s := init s z
  -- z.MulPlaintext(y, negOne)
  let s ← MulPlaintext s z y (-1)
  -- z.Cipher.Mul(x.Cipher, z.Cipher)
  let cx ← getCipher s x
  let cz ← getCipher s z
  let s := setCipher s z (cx * cz)
  -- .Mod(z.Cipher, x.PublicKey.NSq)
  let k ← getPublicKey s x
  let c ← bigMod (cx * cz) k.NSq
  let s := setCipher s z c
  pure (setPublicKey s z (s x).PublicKey)

/-- Method `(z *Int).AddPlaintext(x, y)`. -/
def AddPlaintext (s : Store) (z x : Ref) (y : Int) : Except Failure Store := do
  let s := init s z
  -- z.Cipher.Exp(x.PublicKey.G, y, x.PublicKey.NSq)
  let k ← getPublicKey s x
  match bigExp k.G y k.NSq with
  | none => .error .nilDereference
  | some v =>
    let s := setCipher s z v
    -- .Mul(x.Cipher, z.Cipher)
    let cx ← getCipher s x
    let cz ← getCipher s z
    let s := setCipher s z (cx * cz)
    -- .Mod(z.Cipher, x.PublicKey.NSq)
    let k1 ← getPublicKey s x
    let c ← bigMod (cx * cz) k1.NSq
    let s := setCipher s z c
    pure (setPublicKey s z (s x).PublicKey)

/-- Method `(z *Int).DivPlaintext(x, y)`. -/
def DivPlaintext (s : Store) (z x : Ref) (y : Int) : Except Failure Store := do
  let s := init s z
  if bigInt64 y = 0 then .error .divisionByZero
  else
    -- z.Cipher.ModInverse(y, x.PublicKey.N)
    let k ← getPublicKey s x
    match ← bigModInverse y k.N with
    | none => .error .nilDereference
    | some inv =>
      let s := setCipher s z inv
      -- .Exp(x.Cipher, z.Cipher, x.PublicKey.NSq), the result of the call is dropped
      let cx ← getCipher s x
      let cz ← getCipher s z
      let k1 ← getPublicKey s x
      let s := match bigExp cx cz k1.NSq with
        | some v => setCipher s z v
        | none => s
      pure (setPublicKey s z (s x).PublicKey)

/-! ## Definitions used in the statements and proofs -/

/-- Ciphertext `c`, reduced modulo `N * N`, carries the plaintext `m`: raising it to the
private exponent `l` gives `1 + m * l * N`. -/
def Encodes (N : Int) (l : Nat) (c m : Int) : Prop :=
  0 ≤ c ∧ c < N * N ∧ c ^ l ≡ 1 + m * l * N [ZMOD N * N]

/-- What the correctness proofs use of a key pair: the shape of the public key, a positive
private exponent `l` with inverse `u` modulo `N`, and Euler's theorem for the blinding
values. -/
structure GoodKey (pk : PublicKey) (sk : PrivateKey) (l : Nat) (u : Int) : Prop where
  N_gt : 1 < pk.N
  NSq_eq : pk.NSq = pk.N * pk.N
  G_eq : pk.G = pk.N + 1
  pk_eq : sk.PublicKey = pk
  L_eq : sk.L = (l : Int)
  L_pos : 0 < l
  U_eq : sk.U = some u
  U_inv : (l : Int) * u ≡ 1 [ZMOD pk.N]
  euler : ∀ r : Int, Int.gcd r pk.N = 1 → (r ^ pk.N.toNat) ^ l ≡ 1 [ZMOD pk.N * pk.N]

/-- The plaintext that `Decrypt` recovers from the residue `m mod N`, by the threshold. -/
def signedValue (N t m : Int) : Int :=
  if t < m % N then m % N - N else m % N

/-- Two public keys differ in at least one of the four fields. -/
def keysDiffer (a b : PublicKey) : Prop :=
  a.Length ≠ b.Length ∨ a.N ≠ b.N ∨ a.NSq ≠ b.NSq ∨ a.G ≠ b.G

instance (a b : PublicKey) : Decidable (keysDiffer a b) := by
  unfold keysDiffer
  infer_instance

/-- The residue of the decryption procedure as the specification words it:
`m = ((cipher^L mod NSq − 1) / N) · U mod N`, integer division and non-negative remainder. -/
def specResidue (N NSq L U c : Int) : Int :=
  ((c ^ L.toNat % NSq - 1) / N * U) % N

/-- Sign recovery as the specification words it: `m − N` when `m > threshold`, otherwise
`m`. -/
def specDecrypt (N NSq L U t c : Int) : Int :=
  if specResidue N NSq L U c > t then specResidue N NSq L U c - N else specResidue N NSq L U c

/-- Example data: the public key that `NewKeyPair` builds from the 6-bit primes 53 and 59. -/
def examplePublicKey : PublicKey := ⟨6, 3127, 9778129, 3128⟩

/-- Example data: the private key that `NewKeyPair` builds from the 6-bit primes 53 and 59
with threshold `t`. -/
def examplePrivateKey (t : Int) : PrivateKey := ⟨6, examplePublicKey, 3016, some 2141, t⟩

/-- Example data: a store whose object 1 is `a`, whose object 2 is `b`, and whose other
objects are `new(Int)`. -/
def exampleStore (a b : EncryptedInt) : Store :=
  fun i => if i = 1 then a else if i = 2 then b else EncryptedInt.new

/-! ## Facts about the model of math/big -/

/-- A residue in `[0, m)` congruent to `a` is the Euclidean remainder of `a`. -/
theorem emod_eq_of_modEq {a v m : Int} (h0 : 0 ≤ v) (h1 : v < m) (h : a ≡ v [ZMOD m]) :
    a % m = v := by
  have h2 : a % m = v % m := h
  rw [h2, Int.emod_eq_of_lt h0 h1]

/-- With a non-negative base and a positive modulus the core of `Exp` is the remainder of the
power. -/
theorem bigExpCore_pos (xw yw : Nat) (m : Int) (hm : 0 < m) :
    bigExpCore xw false yw m = ((xw : Int) ^ yw) % m := by
  have hm0 : m.natAbs ≠ 0 := by omega
  have hcast : ((m.natAbs : Nat) : Int) = m := Int.natAbs_of_nonneg hm.le
  simp only [bigExpCore, hm0, if_false, Bool.and_false, Bool.false_and, Bool.false_eq_true]
  rw [Int.natCast_mod, hcast]
  push_cast
  rfl

/-- For an exponent `y ≥ 0` and a modulus `m > 0`, `Exp` stores `x ^ y mod m`, whatever the
sign of the base. -/
theorem bigExp_nonneg (x y m : Int) (hy : 0 ≤ y) (hm : 0 < m) :
    bigExp x y m = some (x ^ y.toNat % m) := by
  have hy0 : ¬ y < 0 := not_lt.mpr hy
  have hyn : y.natAbs = y.toNat := by omega
  simp only [bigExp, hy0, if_false, hyn]
  congr 1
  by_cases hx : x < 0
  · have hm0 : m.natAbs ≠ 0 := by omega
    have hcast : ((m.natAbs : Nat) : Int) = m := Int.natAbs_of_nonneg hm.le
    have hxa : x = -((x.natAbs : Nat) : Int) := by omega
    set a : Nat := x.natAbs ^ y.toNat % m.natAbs with ha
    have halt : a < m.natAbs := Nat.mod_lt _ (by omega)
    have hacast : (a : Int) = ((x.natAbs : Int) ^ y.toNat) % m := by
      rw [ha, Int.natCast_mod, hcast]; push_cast; rfl
    have hmod : ((x.natAbs : Int) ^ y.toNat) ≡ (a : Int) [ZMOD m] := by
      rw [hacast]; exact (Int.mod_modEq _ _).symm
    simp only [bigExpCore, hm0, if_false, hx, decide_True, Bool.and_true, ne_eq, not_false_eq_true,
      if_true, ← ha]
    rcases Nat.even_or_odd y.toNat with he | ho
    · have h2 : ¬ (y.toNat % 2 = 1) := by
        have := Nat.even_iff.mp he; omega
      simp only [h2, decide_False, Bool.and_false, Bool.false_eq_true, if_false]
      rw [hacast]
      have : x ^ y.toNat = (x.natAbs : Int) ^ y.toNat := by
        rw [hxa, Even.neg_pow he]; simp
      rw [this]
    · have h2 : y.toNat % 2 = 1 := Nat.odd_iff.mp ho
      have hpow : x ^ y.toNat = -((x.natAbs : Int) ^ y.toNat) := by
        rw [hxa, Odd.neg_pow ho]; simp
      by_cases ha0 : a = 0
      · simp only [ha0, ne_eq, not_true_eq_false, decide_False, Bool.false_and,
          Bool.false_eq_true, if_false, Nat.cast_zero]
        symm
        apply emod_eq_of_modEq le_rfl hm
        rw [hpow]
        have := hmod.neg
        rw [ha0] at this
        simpa using this
      · simp only [ha0, ne_eq, not_false_eq_true, decide_True, h2, Bool.and_self, if_true]
        symm
        have hsub : ((m.natAbs - a : Nat) : Int) = m - a := by
          rw [Nat.cast_sub halt.le, hcast]
        rw [hsub]
        apply emod_eq_of_modEq (by omega) (by omega)
        rw [hpow]
        have h3 := hmod.neg
        have h4 : (-(a : Int)) ≡ m - a [ZMOD m] := by
          apply Int.modEq_iff_dvd.mpr
          exact ⟨1, by ring⟩
        exact h3.trans h4
  · have hx0 : 0 ≤ x := not_lt.mp hx
    have hdec : decide (x < 0) = false := by simpa using hx0
    rw [hdec, bigExpCore_pos _ _ _ hm, Int.natAbs_of_nonneg hx0]

/-- When `w` is an inverse of `g` modulo `n > 0`, `ModInverse` returns the residue of `w`. -/
theorem bigModInverse_eq {g n w : Int} (hn : 0 < n) (h : g * w ≡ 1 [ZMOD n]) :
    bigModInverse g n = .ok (some (w % n)) := by
  have hcast : ((n.natAbs : Nat) : Int) = n := Int.natAbs_of_nonneg hn.le
  have hn0 : ¬ (n = 0) := by omega
  simp only [bigModInverse, hcast, hn0, and_false, if_false]
  set g1 : Int := if g < 0 then g % n else g with hg1
  have hgg : g1 ≡ g [ZMOD n] := by
    rw [hg1]; split
    · exact Int.mod_modEq _ _
    · exact Int.ModEq.refl _
  have h1 : g1 * w ≡ 1 [ZMOD n] := (hgg.mul_right w).trans h
  obtain ⟨k, hk⟩ := Int.modEq_iff_dvd.mp h1
  have hcop : IsCoprime g1 n := ⟨w, k, by linarith⟩
  have hgcd : Int.gcd g1 n = 1 := Int.gcd_eq_one_iff_coprime.mpr hcop
  rw [if_pos hgcd]
  congr 2
  have hb := Int.gcd_eq_gcd_ab g1 n
  rw [hgcd] at hb
  have h2 : g1 * Int.gcdA g1 n ≡ 1 [ZMOD n] := by
    apply Int.modEq_iff_dvd.mpr
    exact ⟨Int.gcdB g1 n, by push_cast at hb; linarith⟩
  -- both are inverses of g1, hence congruent
  have h3 : Int.gcdA g1 n ≡ w [ZMOD n] := by
    have e1 : Int.gcdA g1 n * (g1 * w) ≡ Int.gcdA g1 n * 1 [ZMOD n] := h1.mul_left _
    have e2 : (g1 * Int.gcdA g1 n) * w ≡ 1 * w [ZMOD n] := h2.mul_right _
    have e3 : Int.gcdA g1 n * (g1 * w) = (g1 * Int.gcdA g1 n) * w := by ring
    rw [e3] at e1
    simpa using e1.symm.trans e2
  exact h3

/-- When `g` has no inverse modulo `n > 0`, `ModInverse` returns nil. -/
theorem bigModInverse_none {g n : Int} (hn : 0 < n) (h : Int.gcd g n ≠ 1) :
    bigModInverse g n = .ok none := by
  have hcast : ((n.natAbs : Nat) : Int) = n := Int.natAbs_of_nonneg hn.le
  have hn0 : ¬ (n = 0) := by omega
  simp only [bigModInverse, hcast, hn0, and_false, if_false]
  have hg : ¬ Int.gcd (if g < 0 then g % n else g) n = 1 := by
    intro h1
    apply h
    split at h1
    · have hc : IsCoprime (g % n) n := Int.gcd_eq_one_iff_coprime.mp h1
      have hc2 : IsCoprime (g % n + n * (g / n)) n := hc.add_mul_left_left _
      rw [Int.emod_add_ediv] at hc2
      exact Int.gcd_eq_one_iff_coprime.mpr hc2
    · exact h1
  rw [if_neg hg]

/-! ## Arithmetic of ciphertexts -/

/-- Binomial expansion modulo `N * N`. -/
theorem one_add_mul_pow (a N : Int) (k : Nat) :
    (1 + a * N) ^ k ≡ 1 + k * a * N [ZMOD N * N] := by
  induction k with
  | zero => simp
  | succ k ih =>
    have h1 : (1 + a * N) ^ (k + 1) ≡ (1 + k * a * N) * (1 + a * N) [ZMOD N * N] := by
      rw [pow_succ]; exact ih.mul_right _
    refine h1.trans ?_
    apply Int.modEq_iff_dvd.mpr
    exact ⟨-(k * a * a), by push_cast; ring⟩

/-- A residue congruent to a ciphertext is a ciphertext of the same plaintext. -/
theorem Encodes.of_modEq {N : Int} {l : Nat} {c m v : Int} (hN : 0 < N * N)
    (h : v ^ l ≡ 1 + m * l * N [ZMOD N * N]) (hc : c = v % (N * N)) : Encodes N l c m := by
  subst hc
  refine ⟨Int.emod_nonneg _ hN.ne', Int.emod_lt_of_pos _ hN, ?_⟩
  exact ((Int.mod_modEq v (N * N)).pow l).trans h

/-- Product of ciphertexts: sum of plaintexts. -/
theorem Encodes.mul {N : Int} {l : Nat} {c1 c2 m1 m2 : Int} (hN : 0 < N * N)
    (h1 : Encodes N l c1 m1) (h2 : Encodes N l c2 m2) :
    Encodes N l (c1 * c2 % (N * N)) (m1 + m2) := by
  apply Encodes.of_modEq hN _ rfl
  rw [mul_pow]
  refine (h1.2.2.mul h2.2.2).trans ?_
  apply Int.modEq_iff_dvd.mpr
  exact ⟨-(m1 * l * (m2 * l)), by ring⟩

/-- Power of a ciphertext: multiple of the plaintext. -/
theorem Encodes.pow {N : Int} {l : Nat} {c m : Int} (hN : 0 < N * N)
    (h : Encodes N l c m) (j : Nat) : Encodes N l (c ^ j % (N * N)) (m * j) := by
  apply Encodes.of_modEq hN _ rfl
  rw [← pow_mul, mul_comm j l, pow_mul]
  refine (h.2.2.pow j).trans ?_
  refine (one_add_mul_pow (m * l) N j).trans ?_
  apply Int.modEq_iff_dvd.mpr
  exact ⟨0, by ring⟩

/-- A ciphertext is invertible modulo `N * N`. -/
theorem Encodes.exists_inverse {N : Int} {l : Nat} {c m : Int} (hl : 0 < l)
    (h : Encodes N l c m) : ∃ w : Int, c * w ≡ 1 [ZMOD N * N] := by
  refine ⟨c ^ (l - 1) * (1 - m * l * N), ?_⟩
  have e : c * (c ^ (l - 1) * (1 - m * l * N)) = c ^ l * (1 - m * l * N) := by
    obtain ⟨j, rfl⟩ : ∃ j, l = j + 1 := ⟨l - 1, by omega⟩
    simp only [Nat.add_sub_cancel]
    ring
  rw [e]
  refine (h.2.2.mul_right _).trans ?_
  apply Int.modEq_iff_dvd.mpr
  exact ⟨m * l * (m * l), by ring⟩

/-- The inverse of a ciphertext carries the opposite plaintext. -/
theorem Encodes.inverse {N : Int} {l : Nat} {c m w : Int} (hN : 0 < N * N)
    (h : Encodes N l c m) (hw : c * w ≡ 1 [ZMOD N * N]) :
    Encodes N l (w % (N * N)) (-m) := by
  apply Encodes.of_modEq hN _ rfl
  have h1 : c ^ l * w ^ l ≡ 1 [ZMOD N * N] := by
    rw [← mul_pow]; simpa using hw.pow l
  have h2 : (1 + m * l * N) * w ^ l ≡ 1 [ZMOD N * N] := (h.2.2.symm.mul_right _).trans h1
  have h3 : (1 - m * l * N) * ((1 + m * l * N) * w ^ l) ≡ (1 - m * l * N) * 1 [ZMOD N * N] :=
    h2.mul_left _
  have h4 : w ^ l ≡ (1 - m * l * N) * ((1 + m * l * N) * w ^ l) [ZMOD N * N] := by
    apply Int.modEq_iff_dvd.mpr
    exact ⟨-(m * l * (m * l) * w ^ l), by ring⟩
  refine (h4.trans h3).trans ?_
  apply Int.modEq_iff_dvd.mpr
  exact ⟨0, by ring⟩

/-- Method `Exp` on a ciphertext, for every exponent (negative ones included): it returns a
ciphertext of the plaintext times the exponent. -/
theorem Encodes.exp {N : Int} {l : Nat} {c m : Int} (hN : 0 < N * N) (hl : 0 < l)
    (h : Encodes N l c m) (k : Int) :
    ∃ v, bigExp c k (N * N) = some v ∧ Encodes N l v (m * k) := by
  by_cases hk : k < 0
  · obtain ⟨w, hw⟩ := h.exists_inverse hl
    have hinv := bigModInverse_eq hN hw
    have hi := Encodes.inverse hN h hw
    have hc0 : decide (c < 0) = false := by simpa using h.1
    refine ⟨(w % (N * N)) ^ k.natAbs % (N * N), ?_, ?_⟩
    · simp only [Paillier.bigExp, hk, if_true, hN.ne', if_false, hinv, hc0]
      rw [bigExpCore_pos _ _ _ hN, Int.natAbs_of_nonneg hi.1]
    · have := hi.pow hN k.natAbs
      have e : -m * (k.natAbs : Int) = m * k := by
        have : (k.natAbs : Int) = -k := by omega
        rw [this]; ring
      rwa [e] at this
  · have hk0 : 0 ≤ k := not_lt.mp hk
    refine ⟨c ^ k.toNat % (N * N), bigExp_nonneg _ _ _ hk0 hN, ?_⟩
    have := h.pow hN k.toNat
    rwa [Int.toNat_of_nonneg hk0] at this

/-- Decoding step of `Decrypt`: from a residue `e ≡ 1 + k * N` modulo `N * N`, subtracting one
and dividing by `N` gives `k mod N`. -/
theorem sub_one_div_of_modEq {N e k : Int} (hN : 1 < N) (h0 : 0 ≤ e) (h1 : e < N * N)
    (h : e ≡ 1 + k * N [ZMOD N * N]) : (e - 1) / N = k % N := by
  have hN0 : 0 < N := by omega
  have hkn : 0 ≤ k % N := Int.emod_nonneg _ hN0.ne'
  have hkl : k % N < N := Int.emod_lt_of_pos _ hN0
  have hv : 1 + k * N ≡ 1 + (k % N) * N [ZMOD N * N] := by
    apply Int.modEq_iff_dvd.mpr
    refine ⟨-(k / N), ?_⟩
    have := Int.emod_add_ediv k N
    have e2 : k = k % N + N * (k / N) := this.symm
    nth_rewrite 2 [e2]
    ring
  have hlt : 1 + (k % N) * N < N * N := by nlinarith
  have hge : 0 ≤ 1 + (k % N) * N := by nlinarith
  have he : e = 1 + (k % N) * N := by
    have a1 := emod_eq_of_modEq hge hlt (h.trans hv)
    rw [Int.emod_eq_of_lt h0 h1] at a1
    exact a1
  rw [he]
  have : 1 + k % N * N - 1 = (k % N) * N := by ring
  rw [this, Int.mul_ediv_cancel _ hN0.ne']

/-! ## Key pairs -/

/-- Two primes of the same bit length: the larger one is below twice the smaller one. -/
theorem lt_two_mul_of_size_eq {p q : Nat} (hp : 0 < p) (hsz : p.size = q.size) : q < 2 * p := by
  have h1 : q < 2 ^ q.size := Nat.lt_size_self q
  have h2 : 0 < p.size := Nat.size_pos.mpr hp
  have h3 : 2 ^ (p.size - 1) ≤ p := Nat.lt_size.mp (by omega)
  have h4 : 2 ^ p.size = 2 * 2 ^ (p.size - 1) := by
    obtain ⟨j, hj⟩ : ∃ j, p.size = j + 1 := ⟨p.size - 1, by omega⟩
    rw [hj, Nat.add_sub_cancel, pow_succ]; ring
  rw [← hsz, h4] at h1
  omega

/-- For odd primes `p < q` of the same bit length, `(p - 1) * (q - 1)` is prime to `p * q`. -/
theorem coprime_of_lt {p q : Nat} (hp : p.Prime) (hq : q.Prime) (hlt : p < q)
    (hop : Odd p) (hoq : Odd q) (hsz : p.size = q.size) :
    Nat.Coprime ((p - 1) * (q - 1)) (p * q) := by
  have hp2 := hp.two_le
  have hq2 := hq.two_le
  have hq2p : q < 2 * p := lt_two_mul_of_size_eq hp.pos hsz
  have a1 : ¬ p ∣ p - 1 := Nat.not_dvd_of_pos_of_lt (by omega) (by omega)
  have a2 : ¬ q ∣ p - 1 := Nat.not_dvd_of_pos_of_lt (by omega) (by omega)
  have a3 : ¬ q ∣ q - 1 := Nat.not_dvd_of_pos_of_lt (by omega) (by omega)
  have a4 : ¬ p ∣ q - 1 := by
    rintro ⟨k, hk⟩
    obtain ⟨a, ha⟩ := hop
    obtain ⟨b, hb⟩ := hoq
    have hk1 : k = 1 := by
      rcases Nat.lt_or_ge k 2 with h | h
      · interval_cases k
        · omega
        · rfl
      · have : p * 2 ≤ p * k := Nat.mul_le_mul_left p h
        omega
    subst hk1
    omega
  have c1 : Nat.Coprime (p - 1) p := ((Nat.Prime.coprime_iff_not_dvd hp).mpr a1).symm
  have c2 : Nat.Coprime (q - 1) p := ((Nat.Prime.coprime_iff_not_dvd hp).mpr a4).symm
  have c3 : Nat.Coprime (p - 1) q := ((Nat.Prime.coprime_iff_not_dvd hq).mpr a2).symm
  have c4 : Nat.Coprime (q - 1) q := ((Nat.Prime.coprime_iff_not_dvd hq).mpr a3).symm
  exact Nat.Coprime.mul_right (Nat.Coprime.mul c1 c2) (Nat.Coprime.mul c3 c4)

/-- For distinct odd primes of the same bit length, `(p - 1) * (q - 1)` is prime to `p * q`. -/
theorem coprime_of_primes {p q : Nat} (hp : p.Prime) (hq : q.Prime) (hne : p ≠ q)
    (hop : Odd p) (hoq : Odd q) (hsz : p.size = q.size) :
    Nat.Coprime ((p - 1) * (q - 1)) (p * q) := by
  rcases Nat.lt_or_gt_of_ne hne with h | h
  · exact coprime_of_lt hp hq h hop hoq hsz
  · have := coprime_of_lt hq hp h hoq hop hsz.symm
    rwa [mul_comm (q - 1), mul_comm q] at this

/-- Euler's theorem for an integer base. -/
theorem int_pow_totient {M : Nat} (hM : 0 < M) {r : Int} (h : IsCoprime r (M : Int)) :
    r ^ Nat.totient M ≡ 1 [ZMOD (M : Int)] := by
  have hM0 : (0 : Int) < M := by exact_mod_cast hM
  have h0 : 0 ≤ r % M := Int.emod_nonneg _ hM0.ne'
  obtain ⟨a, ha⟩ := Int.eq_ofNat_of_zero_le h0
  have hc : IsCoprime (r % M) (M : Int) := by
    have e : r % M = r + (M : Int) * (-(r / M)) := by
      have := Int.emod_add_ediv r M
      linarith
    rw [e]
    exact h.add_mul_left_left _
  rw [ha] at hc
  have hn : Nat.Coprime a M := Nat.isCoprime_iff_coprime.mp hc
  have h1 : ((a ^ Nat.totient M : Nat) : Int) ≡ ((1 : Nat) : Int) [ZMOD (M : Int)] :=
    Int.natCast_modEq_iff.mpr (Nat.ModEq.pow_totient hn)
  push_cast at h1
  rw [← ha] at h1
  exact ((Int.mod_modEq r M).symm.pow _).trans h1

/-- Euler's totient of the square of a product of two distinct primes. -/
theorem totient_sq_of_primes {p q : Nat} (hp : p.Prime) (hq : q.Prime) (hne : p ≠ q) :
    Nat.totient (p * q * (p * q)) = p * q * ((p - 1) * (q - 1)) := by
  have e : p * q * (p * q) = p ^ (1 + 1) * q ^ (1 + 1) := by ring
  have hc : Nat.Coprime (p ^ (1 + 1)) (q ^ (1 + 1)) :=
    Nat.Coprime.pow _ _ ((Nat.coprime_primes hp hq).mpr hne)
  rw [e, Nat.totient_mul hc, Nat.totient_prime_pow_succ hp, Nat.totient_prime_pow_succ hq]
  ring

/-- Function `NewKeyPair` on two distinct odd primes of the same bit length returns a key pair
with the threshold stored as given, and that key pair is good. -/
theorem NewKeyPair_good (keyLength t : Int) {p1 p2 : Nat} (hp1 : p1.Prime) (hp2 : p2.Prime)
    (hne : p1 ≠ p2) (ho1 : Odd p1) (ho2 : Odd p2) (hsz : p1.size = p2.size) :
    ∃ pk sk l u, NewKeyPair keyLength t (.ok p1) (.ok p2) = .ok (pk, sk) ∧
      GoodKey pk sk l u ∧ pk.N = (p1 : Int) * p2 ∧ sk.Threshold = t := by
  have hcop := coprime_of_primes hp1 hp2 hne ho1 ho2 hsz
  have h1 := hp1.two_le
  have h2 := hp2.two_le
  have hn4 : 4 ≤ p1 * p2 := by nlinarith
  have hN : (0 : Int) < (p1 : Int) * p2 := by positivity
  obtain ⟨w, hw⟩ := Int.mod_coprime hcop
  have hl : (((p1 - 1) * (p2 - 1) : Nat) : Int) = ((p1 : Int) - 1) * ((p2 : Int) - 1) := by
    rw [Nat.cast_mul, Nat.cast_sub (by omega), Nat.cast_sub (by omega)]; simp
  have hcastN : ((p1 * p2 : Nat) : Int) = (p1 : Int) * p2 := by push_cast; rfl
  rw [hl, hcastN] at hw
  have hinv := bigModInverse_eq hN hw
  let pk : PublicKey :=
    { Length := keyLength, N := (p1 : Int) * p2, NSq := (p1 : Int) * p2 * ((p1 : Int) * p2),
      G := (p1 : Int) * p2 + 1 }
  let sk : PrivateKey :=
    { Length := keyLength, PublicKey := pk, L := ((p1 : Int) - 1) * ((p2 : Int) - 1),
      U := some (w % ((p1 : Int) * p2)), Threshold := t }
  refine ⟨pk, sk, (p1 - 1) * (p2 - 1), w % ((p1 : Int) * p2), ?_, ?_, rfl, rfl⟩
  · simp only [NewKeyPair, hinv, bind, Except.bind, pure, Except.pure]
  · refine ⟨?_, rfl, rfl, rfl, hl.symm, ?_, rfl, ?_, ?_⟩
    · show (1 : Int) < (p1 : Int) * p2
      have : ((4 : Nat) : Int) ≤ ((p1 * p2 : Nat) : Int) := by exact_mod_cast hn4
      rw [hcastN] at this
      omega
    · have a1 : 0 < p1 - 1 := by omega
      have a2 : 0 < p2 - 1 := by omega
      exact Nat.mul_pos a1 a2
    · show (((p1 - 1) * (p2 - 1) : Nat) : Int) * (w % ((p1 : Int) * p2)) ≡ 1 [ZMOD (p1 : Int) * p2]
      rw [hl]
      exact ((Int.mod_modEq w _).mul_left _).trans hw
    · intro r hr
      show (r ^ ((p1 : Int) * p2).toNat) ^ ((p1 - 1) * (p2 - 1)) ≡ 1
        [ZMOD (p1 : Int) * p2 * ((p1 : Int) * p2)]
      have hr1 : IsCoprime r ((p1 : Int) * p2) := Int.gcd_eq_one_iff_coprime.mp hr
      have hr2 : IsCoprime r (((p1 * p2 * (p1 * p2) : Nat) : Int)) := by
        push_cast
        exact IsCoprime.mul_right hr1 hr1
      have hpos : 0 < p1 * p2 * (p1 * p2) := by positivity
      have he := int_pow_totient hpos hr2
      rw [totient_sq_of_primes hp1 hp2 hne] at he
      have htn : ((p1 : Int) * p2).toNat = p1 * p2 := by
        rw [← hcastN]; exact Int.toNat_ofNat _
      rw [htn, ← pow_mul]
      push_cast at he
      exact he

/-! ## Encryption and decryption under a good key -/

/-- The generator `N + 1` is a ciphertext of the plaintext one. -/
theorem encodes_generator {N : Int} (hN : 1 < N) (l : Nat) : Encodes N l (N + 1) 1 := by
  refine ⟨by omega, by nlinarith, ?_⟩
  have h := one_add_mul_pow 1 N l
  have e1 : (1 : Int) + 1 * N = N + 1 := by ring
  have e2 : (1 : Int) + (l : Int) * 1 * N = 1 + 1 * (l : Int) * N := by ring
  rw [e1, e2] at h
  exact h

/-- Function `NewInt` under a good key, with a blinding value prime to `N`: it returns an
object bound to the key whose cipher carries the plaintext. -/
theorem NewInt_encodes {pk : PublicKey} {sk : PrivateKey} {l : Nat} {u : Int}
    (hk : GoodKey pk sk l u) {r x : Int} (hr : Int.gcd r pk.N = 1) (hx : x < pk.N) :
    ∃ c, NewInt pk x (.ok r) = .ok { Cipher := some c, PublicKey := some pk } ∧
      Encodes pk.N l c x := by
  have hN1 := hk.N_gt
  have hN : 0 < pk.N * pk.N := by nlinarith
  obtain ⟨v, hv, hve⟩ := (encodes_generator hN1 l).exp hN hk.L_pos x
  have hrn := bigExp_nonneg r pk.N (pk.N * pk.N) (by omega) hN
  have hre : Encodes pk.N l (r ^ pk.N.toNat % (pk.N * pk.N)) 0 := by
    apply Encodes.of_modEq hN _ rfl
    simpa using hk.euler r hr
  have hm := hve.mul hN hre
  refine ⟨v * (r ^ pk.N.toNat % (pk.N * pk.N)) % (pk.N * pk.N), ?_, ?_⟩
  · have hx0 : ¬ pk.N ≤ x := not_le.mpr hx
    simp only [NewInt, hx0, if_false, hk.NSq_eq, hk.G_eq, hv, hrn, Option.getD_some, bigMod,
      hN.ne', bind, Except.bind, pure, Except.pure]
  · simpa using hm

/-- Method `Decrypt` under a good key on an object whose cipher carries `m`: it returns the
signed reading of `m mod N` and leaves that value in `z.Cipher`. -/
theorem Decrypt_encodes {pk : PublicKey} {sk : PrivateKey} {l : Nat} {u : Int}
    (hk : GoodKey pk sk l u) {s : Store} {z : Ref} {c m : Int}
    (hz : s z = { Cipher := some c, PublicKey := some pk }) (hc : Encodes pk.N l c m) :
    Decrypt s z sk = .ok (signedValue pk.N sk.Threshold m,
      setCipher s z (signedValue pk.N sk.Threshold m)) := by
  have hN1 := hk.N_gt
  have hN0 : pk.N ≠ 0 := by omega
  have hN : 0 < pk.N * pk.N := by nlinarith
  have hexp := bigExp_nonneg c (l : Int) (pk.N * pk.N) (by omega) hN
  rw [Int.toNat_ofNat] at hexp
  have hlt : ¬ pk.N * pk.N ≤ c := not_le.mpr hc.2.1
  have e0 : 0 ≤ c ^ l % (pk.N * pk.N) := Int.emod_nonneg _ hN.ne'
  have e1 : c ^ l % (pk.N * pk.N) < pk.N * pk.N := Int.emod_lt_of_pos _ hN
  have e2 : c ^ l % (pk.N * pk.N) ≡ 1 + (m * l) * pk.N [ZMOD pk.N * pk.N] :=
    (Int.mod_modEq _ _).trans hc.2.2
  have hdiv := sub_one_div_of_modEq hN1 e0 e1 e2
  have hmod : (m * l % pk.N * u) % pk.N = m % pk.N := by
    have a1 : m * l % pk.N * u ≡ m * l * u [ZMOD pk.N] := (Int.mod_modEq _ _).mul_right _
    have a2 : m * ((l : Int) * u) ≡ m * 1 [ZMOD pk.N] := hk.U_inv.mul_left _
    have a3 : m * l * u = m * ((l : Int) * u) := by ring
    rw [a3] at a1
    have := a1.trans a2
    rw [mul_one] at this
    exact this
  simp only [Decrypt, hz, hk.pk_eq, requirePublicKeysEqual, and_self, if_true, getCipher,
    hk.NSq_eq, hlt, if_false, hk.L_eq, hexp, bigDiv, hN0, hdiv, hk.U_eq, bigMod, hmod,
    signedValue, bind, Except.bind]

/-- Sign recovery: a plaintext of magnitude below the threshold `t`, with `2 * t ≤ N`, is read
back unchanged. -/
theorem signedValue_eq {N t m : Int} (ht : 2 * t ≤ N) (hm : |m| < t) :
    signedValue N t m = m := by
  have h1 := abs_lt.mp hm
  unfold signedValue
  by_cases h0 : 0 ≤ m
  · have : m % N = m := Int.emod_eq_of_lt h0 (by omega)
    rw [this, if_neg (by omega)]
  · have h2 : m % N = m + N := by
      apply emod_eq_of_modEq (by omega) (by omega)
      apply Int.modEq_iff_dvd.mpr
      exact ⟨1, by ring⟩
    rw [h2, if_pos (by omega)]
    ring

/-! ## The operators with an output object distinct from the operands -/

@[simp]
theorem setCipher_same (s : Store) (z : Ref) (c : Int) :
    setCipher s z c z = { s z with Cipher := some c } := by
  simp [setCipher]

@[simp]
theorem setCipher_other (s : Store) {z w : Ref} (c : Int) (h : w ≠ z) :
    setCipher s z c w = s w := by
  simp [setCipher, Function.update_noteq h]

@[simp]
theorem setPublicKey_same (s : Store) (z : Ref) (k : Option PublicKey) :
    setPublicKey s z k z = { s z with PublicKey := k } := by
  simp [setPublicKey]

@[simp]
theorem setPublicKey_other (s : Store) {z w : Ref} (k : Option PublicKey) (h : w ≠ z) :
    setPublicKey s z k w = s w := by
  simp [setPublicKey, Function.update_noteq h]

@[simp]
theorem init_other (s : Store) {z w : Ref} (h : w ≠ z) : init s z w = s w := by
  unfold init
  split
  · exact setCipher_other s 0 h
  · rfl

/-- Method `MulPlaintext` into an output distinct from the operand. -/
theorem MulPlaintext_fresh {s : Store} {z x : Ref} {pk : PublicKey} {cx k v : Int}
    (hzx : x ≠ z) (hx : s x = { Cipher := some cx, PublicKey := some pk })
    (hv : bigExp cx k pk.NSq = some v) :
    ∃ s1, MulPlaintext s z x k = .ok s1 ∧
      s1 z = { Cipher := some v, PublicKey := some pk } ∧ ∀ w, w ≠ z → s1 w = s w := by
  have hx1 : init s z x = { Cipher := some cx, PublicKey := some pk } := by
    rw [init_other s hzx, hx]
  refine ⟨setPublicKey (setCipher (init s z) z v) z (some pk), ?_, ?_, ?_⟩
  · simp only [MulPlaintext, getCipher, getPublicKey, hx1, hv, setCipher_other _ _ hzx, bind,
      Except.bind, pure, Except.pure]
  · simp [hzx, hx]
  · intro w hw
    simp [hw]

/-- Method `Add` into an output distinct from the operands. -/
theorem Add_fresh {s : Store} {z x y : Ref} {pk : PublicKey} {cx cy : Int}
    (hzx : x ≠ z) (hzy : y ≠ z) (hx : s x = { Cipher := some cx, PublicKey := some pk })
    (hy : s y = { Cipher := some cy, PublicKey := some pk }) (hN : pk.NSq ≠ 0) :
    ∃ s1, Add s z x y = .ok s1 ∧
      s1 z = { Cipher := some (cx * cy % pk.NSq), PublicKey := some pk } ∧
      ∀ w, w ≠ z → s1 w = s w := by
  have hx1 : init s z x = { Cipher := some cx, PublicKey := some pk } := by
    rw [init_other s hzx, hx]
  have hy1 : init s z y = { Cipher := some cy, PublicKey := some pk } := by
    rw [init_other s hzy, hy]
  refine ⟨setPublicKey (setCipher (setCipher (init s z) z (cx * cy)) z (cx * cy % pk.NSq)) z (some pk), ?_, ?_, ?_⟩
  · simp only [Add, hx, hy, requirePublicKeysEqual, and_self, if_true, getCipher, getPublicKey,
      hx1, hy1, setCipher_other _ _ hzx, bigMod, hN, if_false, bind, Except.bind, pure,
      Except.pure]
  · simp [hzx, hx]
  · intro w hw
    simp [hw]

/-- Method `Sub` into an output distinct from the operands. -/
theorem Sub_fresh {s : Store} {z x y : Ref} {pk : PublicKey} {cx cy v : Int}
    (hzx : x ≠ z) (hzy : y ≠ z) (hx : s x = { Cipher := some cx, PublicKey := some pk })
    (hy : s y = { Cipher := some cy, PublicKey := some pk }) (hN : pk.NSq ≠ 0)
    (hv : bigExp cy (-1) pk.NSq = some v) :
    ∃ s1, Sub s z x y = .ok s1 ∧
      s1 z = { Cipher := some (cx * v % pk.NSq), PublicKey := some pk } ∧
      ∀ w, w ≠ z → s1 w = s w := by
  have hy1 : init s z y = { Cipher := some cy, PublicKey := some pk } := by
    rw [init_other s hzy, hy]
  obtain ⟨s2, h2, h2z, h2w⟩ := MulPlaintext_fresh (s := init s z) hzy hy1 hv
  have h2x : s2 x = { Cipher := some cx, PublicKey := some pk } := by
    rw [h2w x hzx, init_other s hzx, hx]
  refine ⟨setPublicKey (setCipher (setCipher s2 z (cx * v)) z (cx * v % pk.NSq)) z (some pk), ?_, ?_, ?_⟩
  · simp only [Sub, hx, hy, requirePublicKeysEqual, and_self, if_true, h2, getCipher,
      getPublicKey, h2x, h2z, setCipher_other _ _ hzx, bigMod, hN, if_false, bind, Except.bind,
      pure, Except.pure]
  · simp [hzx, h2x]
  · intro w hw
    simp [hw, h2w w hw]

/-- Method `AddPlaintext` into an output distinct from the operand. -/
theorem AddPlaintext_fresh {s : Store} {z x : Ref} {pk : PublicKey} {cx k v : Int}
    (hzx : x ≠ z) (hx : s x = { Cipher := some cx, PublicKey := some pk }) (hN : pk.NSq ≠ 0)
    (hv : bigExp pk.G k pk.NSq = some v) :
    ∃ s1, AddPlaintext s z x k = .ok s1 ∧
      s1 z = { Cipher := some (cx * v % pk.NSq), PublicKey := some pk } ∧
      ∀ w, w ≠ z → s1 w = s w := by
  have hx1 : init s z x = { Cipher := some cx, PublicKey := some pk } := by
    rw [init_other s hzx, hx]
  refine ⟨setPublicKey (setCipher (setCipher (setCipher (init s z) z v) z (cx * v)) z
    (cx * v % pk.NSq)) z (some pk), ?_, ?_, ?_⟩
  · simp only [AddPlaintext, getCipher, getPublicKey, hx1, hv, setCipher_other _ _ hzx,
      setCipher_same, bigMod, hN, if_false, bind, Except.bind, pure, Except.pure]
  · simp [hzx, hx]
  · intro w hw
    simp [hw]

/-- Method `DivPlaintext` into an output distinct from the operand. -/
theorem DivPlaintext_fresh {s : Store} {z x : Ref} {pk : PublicKey} {cx k inv v : Int}
    (hzx : x ≠ z) (hx : s x = { Cipher := some cx, PublicKey := some pk })
    (hk : bigInt64 k ≠ 0) (hinv : bigModInverse k pk.N = .ok (some inv))
    (hv : bigExp cx inv pk.NSq = some v) :
    ∃ s1, DivPlaintext s z x k = .ok s1 ∧
      s1 z = { Cipher := some v, PublicKey := some pk } ∧ ∀ w, w ≠ z → s1 w = s w := by
  have hx1 : init s z x = { Cipher := some cx, PublicKey := some pk } := by
    rw [init_other s hzx, hx]
  refine ⟨setPublicKey (setCipher (setCipher (init s z) z inv) z v) z (some pk), ?_, ?_, ?_⟩
  · simp only [DivPlaintext, hk, if_false, getCipher, getPublicKey, hx1, hinv,
      setCipher_other _ _ hzx, setCipher_same, hv, bind, Except.bind, pure, Except.pure]
  · simp [hzx, hx]
  · intro w hw
    simp [hw]

/-! ## Correctness of encryption, decryption and the homomorphic operators -/

/-- The signed reading depends only on the residue modulo `N`. -/
theorem signedValue_congr {N t m m1 : Int} (h : m ≡ m1 [ZMOD N]) :
    signedValue N t m = signedValue N t m1 := by
  have h1 : m % N = m1 % N := h
  simp only [signedValue, h1]

/-- A plaintext below the threshold is below the modulus. -/
theorem lt_modulus_of_abs_lt {N t x : Int} (ht : 2 * t ≤ N) (hx : |x| < t) : x < N := by
  have h1 := abs_lt.mp hx
  omega

/-- C1 (round trip).  For the key pair that `NewKeyPair` builds from two distinct odd primes
`p1`, `p2` of the same bit length with a threshold `t`, `2 * t ≤ N = p1 * p2`, for every
blinding value `r` prime to `N` and every plaintext `x` with `|x| < t`, key generation and
`NewInt` return, and `Decrypt` applied to the object returned by `NewInt` returns exactly
`x`.  (The bounds `0 ≤ t` and `0 < r < N` of the claim are not needed.) -/
theorem roundtrip (keyLength t : Int) (p1 p2 : Nat) (r x : Int)
    (hp1 : p1.Prime) (hp2 : p2.Prime) (hne : p1 ≠ p2) (ho1 : Odd p1) (ho2 : Odd p2)
    (hsz : p1.size = p2.size) (ht : 2 * t ≤ (p1 : Int) * p2)
    (hr : Int.gcd r ((p1 : Int) * p2) = 1) (hx : |x| < t) :
    ∃ pk sk e, NewKeyPair keyLength t (.ok p1) (.ok p2) = .ok (pk, sk) ∧
      NewInt pk x (.ok r) = .ok e ∧
      ∀ (s : Store) (z : Ref), s z = e → ∃ s1, Decrypt s z sk = .ok (x, s1) := by
  obtain ⟨pk, sk, l, u, hkey, hk, hN, hT⟩ := NewKeyPair_good keyLength t hp1 hp2 hne ho1 ho2 hsz
  rw [← hN] at ht hr
  obtain ⟨c, he, hc⟩ := NewInt_encodes hk hr (lt_modulus_of_abs_lt ht hx)
  refine ⟨pk, sk, _, hkey, he, ?_⟩
  intro s z hz
  refine ⟨setCipher s z x, ?_⟩
  rw [Decrypt_encodes hk hz hc, hT, signedValue_eq ht hx]

/-- C2 (additive homomorphism).  Under such a key pair, for plaintexts `x`, `y` with
`|x| < t`, `|y| < t`, `|x + y| < t` and blinding values prime to `N`: `Add` of the two
objects returned by `NewInt`, written into an output object `z` distinct from both, returns,
and `Decrypt` of `z` returns `x + y`. -/
theorem add_homomorphic (keyLength t : Int) (p1 p2 : Nat) (r1 r2 x y : Int)
    (hp1 : p1.Prime) (hp2 : p2.Prime) (hne : p1 ≠ p2) (ho1 : Odd p1) (ho2 : Odd p2)
    (hsz : p1.size = p2.size) (ht : 2 * t ≤ (p1 : Int) * p2)
    (hr1 : Int.gcd r1 ((p1 : Int) * p2) = 1) (hr2 : Int.gcd r2 ((p1 : Int) * p2) = 1)
    (hx : |x| < t) (hy : |y| < t) (hxy : |x + y| < t) :
    ∃ pk sk ex ey, NewKeyPair keyLength t (.ok p1) (.ok p2) = .ok (pk, sk) ∧
      NewInt pk x (.ok r1) = .ok ex ∧ NewInt pk y (.ok r2) = .ok ey ∧
      ∀ (s : Store) (z a b : Ref), a ≠ z → b ≠ z → s a = ex → s b = ey →
        ∃ s1 s2, Add s z a b = .ok s1 ∧ Decrypt s1 z sk = .ok (x + y, s2) := by
  obtain ⟨pk, sk, l, u, hkey, hk, hN, hT⟩ := NewKeyPair_good keyLength t hp1 hp2 hne ho1 ho2 hsz
  rw [← hN] at ht hr1 hr2
  have hNN : 0 < pk.N * pk.N := by have := hk.N_gt; nlinarith
  obtain ⟨cx, hex, hcx⟩ := NewInt_encodes hk hr1 (lt_modulus_of_abs_lt ht hx)
  obtain ⟨cy, hey, hcy⟩ := NewInt_encodes hk hr2 (lt_modulus_of_abs_lt ht hy)
  refine ⟨pk, sk, _, _, hkey, hex, hey, ?_⟩
  intro s z a b haz hbz ha hb
  obtain ⟨s1, h1, h1z, -⟩ := Add_fresh haz hbz ha hb (by rw [hk.NSq_eq]; exact hNN.ne')
  rw [hk.NSq_eq] at h1z
  refine ⟨s1, setCipher s1 z (x + y), h1, ?_⟩
  rw [Decrypt_encodes hk h1z (hcx.mul hNN hcy), hT, signedValue_eq ht hxy]

/-- C3 (subtractive homomorphism).  Under such a key pair, for plaintexts `x`, `y` with
`|x| < t`, `|y| < t`, `|x - y| < t` and blinding values prime to `N`: `Sub` of the two
objects returned by `NewInt`, written into an output object `z` distinct from both operands,
returns, and `Decrypt` of `z` returns `x - y`. -/
theorem sub_homomorphic (keyLength t : Int) (p1 p2 : Nat) (r1 r2 x y : Int)
    (hp1 : p1.Prime) (hp2 : p2.Prime) (hne : p1 ≠ p2) (ho1 : Odd p1) (ho2 : Odd p2)
    (hsz : p1.size = p2.size) (ht : 2 * t ≤ (p1 : Int) * p2)
    (hr1 : Int.gcd r1 ((p1 : Int) * p2) = 1) (hr2 : Int.gcd r2 ((p1 : Int) * p2) = 1)
    (hx : |x| < t) (hy : |y| < t) (hxy : |x - y| < t) :
    ∃ pk sk ex ey, NewKeyPair keyLength t (.ok p1) (.ok p2) = .ok (pk, sk) ∧
      NewInt pk x (.ok r1) = .ok ex ∧ NewInt pk y (.ok r2) = .ok ey ∧
      ∀ (s : Store) (z a b : Ref), a ≠ z → b ≠ z → s a = ex → s b = ey →
        ∃ s1 s2, Sub s z a b = .ok s1 ∧ Decrypt s1 z sk = .ok (x - y, s2) := by
  obtain ⟨pk, sk, l, u, hkey, hk, hN, hT⟩ := NewKeyPair_good keyLength t hp1 hp2 hne ho1 ho2 hsz
  rw [← hN] at ht hr1 hr2
  have hNN : 0 < pk.N * pk.N := by have := hk.N_gt; nlinarith
  obtain ⟨cx, hex, hcx⟩ := NewInt_encodes hk hr1 (lt_modulus_of_abs_lt ht hx)
  obtain ⟨cy, hey, hcy⟩ := NewInt_encodes hk hr2 (lt_modulus_of_abs_lt ht hy)
  obtain ⟨v, hv, hve⟩ := hcy.exp hNN hk.L_pos (-1)
  refine ⟨pk, sk, _, _, hkey, hex, hey, ?_⟩
  intro s z a b haz hbz ha hb
  obtain ⟨s1, h1, h1z, -⟩ := Sub_fresh haz hbz ha hb (by rw [hk.NSq_eq]; exact hNN.ne')
    (by rw [hk.NSq_eq]; exact hv)
  rw [hk.NSq_eq] at h1z
  refine ⟨s1, setCipher s1 z (x - y), h1, ?_⟩
  have henc := hcx.mul hNN hve
  have e : x + y * -1 = x - y := by ring
  rw [e] at henc
  rw [Decrypt_encodes hk h1z henc, hT, signedValue_eq ht hxy]

/-- C4 (plaintext-addition homomorphism).  Under such a key pair, for a plaintext `x` and a
scalar `k` (of any sign) with `|x| < t`, `|x + k| < t` and a blinding value prime to `N`:
`AddPlaintext` of the object returned by `NewInt` and `k`, written into an output object
distinct from the operand, returns, and `Decrypt` of the output returns `x + k`. -/
theorem addPlaintext_homomorphic (keyLength t : Int) (p1 p2 : Nat) (r x k : Int)
    (hp1 : p1.Prime) (hp2 : p2.Prime) (hne : p1 ≠ p2) (ho1 : Odd p1) (ho2 : Odd p2)
    (hsz : p1.size = p2.size) (ht : 2 * t ≤ (p1 : Int) * p2)
    (hr : Int.gcd r ((p1 : Int) * p2) = 1) (hx : |x| < t) (hxk : |x + k| < t) :
    ∃ pk sk ex, NewKeyPair keyLength t (.ok p1) (.ok p2) = .ok (pk, sk) ∧
      NewInt pk x (.ok r) = .ok ex ∧
      ∀ (s : Store) (z a : Ref), a ≠ z → s a = ex →
        ∃ s1 s2, AddPlaintext s z a k = .ok s1 ∧ Decrypt s1 z sk = .ok (x + k, s2) := by
  obtain ⟨pk, sk, l, u, hkey, hk, hN, hT⟩ := NewKeyPair_good keyLength t hp1 hp2 hne ho1 ho2 hsz
  rw [← hN] at ht hr
  have hNN : 0 < pk.N * pk.N := by have := hk.N_gt; nlinarith
  obtain ⟨cx, hex, hcx⟩ := NewInt_encodes hk hr (lt_modulus_of_abs_lt ht hx)
  obtain ⟨v, hv, hve⟩ := (encodes_generator hk.N_gt l).exp hNN hk.L_pos k
  refine ⟨pk, sk, _, hkey, hex, ?_⟩
  intro s z a haz ha
  obtain ⟨s1, h1, h1z, -⟩ := AddPlaintext_fresh (k := k) haz ha
    (by rw [hk.NSq_eq]; exact hNN.ne') (by rw [hk.NSq_eq, hk.G_eq]; exact hv)
  rw [hk.NSq_eq] at h1z
  refine ⟨s1, setCipher s1 z (x + k), h1, ?_⟩
  have henc := hcx.mul hNN hve
  rw [one_mul] at henc
  rw [Decrypt_encodes hk h1z henc, hT, signedValue_eq ht hxk]

/-- C5 (scalar-multiplication homomorphism).  Under such a key pair, for a plaintext `x` and
a scalar `k` (negative, zero or positive) with `|x| < t`, `|x * k| < t` and a blinding value
prime to `N`: `MulPlaintext` of the object returned by `NewInt` and `k`, written into an
output object distinct from the operand, returns, and `Decrypt` of the output returns
`x * k`. -/
theorem mulPlaintext_homomorphic (keyLength t : Int) (p1 p2 : Nat) (r x k : Int)
    (hp1 : p1.Prime) (hp2 : p2.Prime) (hne : p1 ≠ p2) (ho1 : Odd p1) (ho2 : Odd p2)
    (hsz : p1.size = p2.size) (ht : 2 * t ≤ (p1 : Int) * p2)
    (hr : Int.gcd r ((p1 : Int) * p2) = 1) (hx : |x| < t) (hxk : |x * k| < t) :
    ∃ pk sk ex, NewKeyPair keyLength t (.ok p1) (.ok p2) = .ok (pk, sk) ∧
      NewInt pk x (.ok r) = .ok ex ∧
      ∀ (s : Store) (z a : Ref), a ≠ z → s a = ex →
        ∃ s1 s2, MulPlaintext s z a k = .ok s1 ∧ Decrypt s1 z sk = .ok (x * k, s2) := by
  obtain ⟨pk, sk, l, u, hkey, hk, hN, hT⟩ := NewKeyPair_good keyLength t hp1 hp2 hne ho1 ho2 hsz
  rw [← hN] at ht hr
  have hNN : 0 < pk.N * pk.N := by have := hk.N_gt; nlinarith
  obtain ⟨cx, hex, hcx⟩ := NewInt_encodes hk hr (lt_modulus_of_abs_lt ht hx)
  obtain ⟨v, hv, hve⟩ := hcx.exp hNN hk.L_pos k
  refine ⟨pk, sk, _, hkey, hex, ?_⟩
  intro s z a haz ha
  obtain ⟨s1, h1, h1z, -⟩ := MulPlaintext_fresh (k := k) haz ha (by rw [hk.NSq_eq]; exact hv)
  refine ⟨s1, setCipher s1 z (x * k), h1, ?_⟩
  rw [Decrypt_encodes hk h1z hve, hT, signedValue_eq ht hxk]

/-- Function `NewKeyPair` on the primes 5 and 7 with threshold 17. -/
theorem NewKeyPair_five_seven :
    NewKeyPair 3 17 (.ok 5) (.ok 7) =
      .ok (⟨3, 35, 1225, 36⟩, ⟨3, ⟨3, 35, 1225, 36⟩, 24, some 19, 17⟩) := by
  have h : bigModInverse 24 35 = .ok (some (19 % 35)) :=
    bigModInverse_eq (by decide) (by decide)
  simp only [NewKeyPair, bind, Except.bind, pure, Except.pure]
  norm_num
  rw [h]
  rfl

/-- C6, as stated, fails: with the key pair built from the primes 5 and 7 (threshold 17), the
plaintext 5 and the divisor 5, which divides it exactly, `DivPlaintext` into a fresh output
does not return: the divisor has no inverse modulo `N = 35`, `ModInverse` returns nil and the
chained `Exp` dereferences it. -/
theorem divPlaintext_not_invertible :
    NewKeyPair 3 17 (.ok 5) (.ok 7) =
        .ok (⟨3, 35, 1225, 36⟩, ⟨3, ⟨3, 35, 1225, 36⟩, 24, some 19, 17⟩) ∧
      NewInt ⟨3, 35, 1225, 36⟩ 5 (.ok 2) = .ok ⟨some 718, some ⟨3, 35, 1225, 36⟩⟩ ∧
      (5 : Int) ∣ 5 ∧ (5 : Int) ≠ 0 ∧ |(5 : Int)| < 17 ∧ Int.gcd 2 35 = 1 ∧
      DivPlaintext (Function.update (fun _ => EncryptedInt.new) 1
        ⟨some 718, some ⟨3, 35, 1225, 36⟩⟩) 0 1 5 = .error .nilDereference := by
  refine ⟨NewKeyPair_five_seven, rfl, dvd_refl _, by decide, by decide, by decide, rfl⟩

/-- C6, amended (exact division).  Under a key pair built from two distinct odd primes of the
same bit length with `2 * t ≤ N`, for a plaintext `x` with `|x| < t`, a blinding value prime
to `N`, and a divisor `k` that divides `x` exactly, is prime to `N` and whose low 64 bits are
not all zero: `DivPlaintext` into an output object distinct from the operand returns, and
`Decrypt` of the output returns the exact quotient `x / k`. -/
theorem divPlaintext_exact (keyLength t : Int) (p1 p2 : Nat) (r x k : Int)
    (hp1 : p1.Prime) (hp2 : p2.Prime) (hne : p1 ≠ p2) (ho1 : Odd p1) (ho2 : Odd p2)
    (hsz : p1.size = p2.size) (ht : 2 * t ≤ (p1 : Int) * p2)
    (hr : Int.gcd r ((p1 : Int) * p2) = 1) (hx : |x| < t) (hkx : k ∣ x)
    (hkN : Int.gcd k ((p1 : Int) * p2) = 1) (hk64 : bigInt64 k ≠ 0) :
    ∃ pk sk ex, NewKeyPair keyLength t (.ok p1) (.ok p2) = .ok (pk, sk) ∧
      NewInt pk x (.ok r) = .ok ex ∧
      ∀ (s : Store) (z a : Ref), a ≠ z → s a = ex →
        ∃ s1 s2, DivPlaintext s z a k = .ok s1 ∧ Decrypt s1 z sk = .ok (x / k, s2) := by
  obtain ⟨pk, sk, l, u, hkey, hk, hN, hT⟩ := NewKeyPair_good keyLength t hp1 hp2 hne ho1 ho2 hsz
  rw [← hN] at ht hr hkN
  have hN1 := hk.N_gt
  have hNN : 0 < pk.N * pk.N := by nlinarith
  have hk0 : k ≠ 0 := by
    rintro rfl
    exact hk64 (by decide)
  obtain ⟨cx, hex, hcx⟩ := NewInt_encodes hk hr (lt_modulus_of_abs_lt ht hx)
  obtain ⟨a, b, hab⟩ := Int.gcd_eq_one_iff_coprime.mp hkN
  have hinvmod : k * a ≡ 1 [ZMOD pk.N] := by
    apply Int.modEq_iff_dvd.mpr
    exact ⟨b, by linarith⟩
  have hinv := bigModInverse_eq (by omega : 0 < pk.N) hinvmod
  obtain ⟨v, hv, hve⟩ := hcx.exp hNN hk.L_pos (a % pk.N)
  obtain ⟨q, rfl⟩ := hkx
  have hq : k * q / k = q := Int.mul_ediv_cancel_left q hk0
  have hqt : |q| < t := by
    have h1 : |k * q| = |k| * |q| := abs_mul k q
    have h2 : 1 ≤ |k| := Int.one_le_abs hk0
    have h3 : 0 ≤ |q| := abs_nonneg q
    have h4 : |q| ≤ |k| * |q| := by nlinarith
    rw [h1] at hx
    omega
  have hcong : k * q * (a % pk.N) ≡ q [ZMOD pk.N] := by
    have e1 : k * q * (a % pk.N) ≡ k * q * a [ZMOD pk.N] := (Int.mod_modEq a pk.N).mul_left _
    have e2 : q * (k * a) ≡ q * 1 [ZMOD pk.N] := hinvmod.mul_left _
    have e3 : k * q * a = q * (k * a) := by ring
    rw [e3] at e1
    have := e1.trans e2
    rwa [mul_one] at this
  refine ⟨pk, sk, _, hkey, hex, ?_⟩
  intro s z c hcz hc
  obtain ⟨s1, h1, h1z, -⟩ := DivPlaintext_fresh hcz hc hk64 hinv (by rw [hk.NSq_eq]; exact hv)
  refine ⟨s1, setCipher s1 z q, h1, ?_⟩
  rw [Decrypt_encodes hk h1z hve, hT, signedValue_congr hcong, signedValue_eq ht hqt, hq]

/-! ## Failure conditions -/

/-- A sequence of two steps does not fail with `e` when neither step does. -/
theorem bind_ne_error {α β : Type} {e : Failure} {a : Except Failure α}
    {f : α → Except Failure β} (ha : a ≠ .error e) (hf : ∀ v, f v ≠ .error e) :
    (a >>= f) ≠ .error e := by
  cases a with
  | error e1 => simpa [bind, Except.bind] using ha
  | ok v => simpa [bind, Except.bind] using hf v

theorem pure_ne_error {α : Type} (a : α) (e : Failure) :
    (pure a : Except Failure α) ≠ .error e := by
  simp [pure, Except.pure]

/-- Reading a cipher fails only by a nil dereference. -/
theorem getCipher_ne_error (s : Store) (x : Ref) {e : Failure} (he : e ≠ .nilDereference) :
    getCipher s x ≠ .error e := by
  unfold getCipher; split
  · simp
  · intro h; apply he; cases h; rfl

/-- Reading a public key fails only by a nil dereference. -/
theorem getPublicKey_ne_error (s : Store) (x : Ref) {e : Failure} (he : e ≠ .nilDereference) :
    getPublicKey s x ≠ .error e := by
  unfold getPublicKey; split
  · simp
  · intro h; apply he; cases h; rfl

/-- Method `Mod` fails only by a division by zero of math/big. -/
theorem bigMod_ne_error (a m : Int) {e : Failure} (he : e ≠ .bigDivisionByZero) :
    bigMod a m ≠ .error e := by
  unfold bigMod; split
  · intro h; apply he; cases h; rfl
  · simp

/-- Method `Div` fails only by a division by zero of math/big. -/
theorem bigDiv_ne_error (a m : Int) {e : Failure} (he : e ≠ .bigDivisionByZero) :
    bigDiv a m ≠ .error e := by
  unfold bigDiv; split
  · intro h; apply he; cases h; rfl
  · simp

/-- Method `ModInverse` fails only by a division by zero of math/big. -/
theorem bigModInverse_ne_error (g n : Int) {e : Failure} (he : e ≠ .bigDivisionByZero) :
    bigModInverse g n ≠ .error e := by
  unfold bigModInverse
  simp only
  split
  · intro h; apply he; cases h; rfl
  · split_ifs <;> simp

/-- The key check on two non-nil keys. -/
theorem requirePublicKeysEqual_some (a b : PublicKey) :
    requirePublicKeysEqual (some a) (some b) =
      if keysDiffer a b then .error .publicKeysNotEqual else .ok () := by
  unfold requirePublicKeysEqual keysDiffer
  by_cases h : a.Length = b.Length ∧ a.N = b.N ∧ a.NSq = b.NSq ∧ a.G = b.G
  · have h1 : ¬ (a.Length ≠ b.Length ∨ a.N ≠ b.N ∨ a.NSq ≠ b.NSq ∨ a.G ≠ b.G) := by tauto
    show (if _ then _ else _) = _
    rw [if_pos h, if_neg h1]
  · have h1 : a.Length ≠ b.Length ∨ a.N ≠ b.N ∨ a.NSq ≠ b.NSq ∨ a.G ≠ b.G := by tauto
    show (if _ then _ else _) = _
    rw [if_neg h, if_pos h1]

/-- Method `MulPlaintext` fails only by a nil dereference. -/
theorem MulPlaintext_ne_error (s : Store) (z x : Ref) (y : Int) {e : Failure}
    (he : e ≠ .nilDereference) : MulPlaintext s z x y ≠ .error e := by
  unfold MulPlaintext
  refine bind_ne_error (getCipher_ne_error _ _ he) (fun _ => ?_)
  refine bind_ne_error (getPublicKey_ne_error _ _ he) (fun _ => ?_)
  exact pure_ne_error _ _

/-- Method `Add` raises the key panic exactly when the keys of the operands differ. -/
theorem Add_keys (s : Store) (z x y : Ref) {kx ky : PublicKey}
    (hx : (s x).PublicKey = some kx) (hy : (s y).PublicKey = some ky) :
    Add s z x y = .error .publicKeysNotEqual ↔ keysDiffer kx ky := by
  unfold Add
  rw [hx, hy, requirePublicKeysEqual_some]
  by_cases h : keysDiffer kx ky
  · simp only [h, if_true, iff_true]
    rfl
  · simp only [h, if_false, iff_false]
    refine bind_ne_error (by simp) (fun _ => ?_)
    refine bind_ne_error (getCipher_ne_error _ _ (by decide)) (fun _ => ?_)
    refine bind_ne_error (getCipher_ne_error _ _ (by decide)) (fun _ => ?_)
    refine bind_ne_error (getPublicKey_ne_error _ _ (by decide)) (fun _ => ?_)
    refine bind_ne_error (bigMod_ne_error _ _ (by decide)) (fun _ => ?_)
    exact pure_ne_error _ _

/-- Method `Sub` raises the key panic exactly when the keys of the operands differ. -/
theorem Sub_keys (s : Store) (z x y : Ref) {kx ky : PublicKey}
    (hx : (s x).PublicKey = some kx) (hy : (s y).PublicKey = some ky) :
    Sub s z x y = .error .publicKeysNotEqual ↔ keysDiffer kx ky := by
  unfold Sub
  rw [hx, hy, requirePublicKeysEqual_some]
  by_cases h : keysDiffer kx ky
  · simp only [h, if_true, iff_true]
    rfl
  · simp only [h, if_false, iff_false]
    refine bind_ne_error (by simp) (fun _ => ?_)
    refine bind_ne_error (MulPlaintext_ne_error _ _ _ _ (by decide)) (fun _ => ?_)
    refine bind_ne_error (getCipher_ne_error _ _ (by decide)) (fun _ => ?_)
    refine bind_ne_error (getCipher_ne_error _ _ (by decide)) (fun _ => ?_)
    refine bind_ne_error (getPublicKey_ne_error _ _ (by decide)) (fun _ => ?_)
    refine bind_ne_error (bigMod_ne_error _ _ (by decide)) (fun _ => ?_)
    exact pure_ne_error _ _

/-- What follows the two checks of `Decrypt` fails only by a nil dereference or a division by
zero of math/big. -/
theorem Decrypt_tail_ne_error (s : Store) (z : Ref) (sk : PrivateKey) (c : Int) {e : Failure}
    (h1 : e ≠ .nilDereference) (h2 : e ≠ .bigDivisionByZero) :
    (match bigExp c sk.L sk.PublicKey.NSq with
      | none => (.error .nilDereference : Except Failure (Int × Store))
      | some c1 =>
        match bigDiv (c1 - 1) sk.PublicKey.N with
        | .error e => .error e
        | .ok c3 =>
          match sk.U with
          | none => .error .nilDereference
          | some u =>
            match bigMod (c3 * u) sk.PublicKey.N with
            | .error e => .error e
            | .ok c5 =>
              .ok (if sk.Threshold < c5 then c5 - sk.PublicKey.N else c5,
                setCipher s z (if sk.Threshold < c5 then c5 - sk.PublicKey.N else c5)))
      ≠ .error e := by
  split
  · intro h; apply h1; cases h; rfl
  · split
    · rename_i e1 he1
      intro h; cases h
      exact bigDiv_ne_error _ _ h2 he1
    · split
      · intro h; apply h1; cases h; rfl
      · split
        · rename_i e1 he1
          intro h; cases h
          exact bigMod_ne_error _ _ h2 he1
        · simp

/-- Method `Decrypt` raises the key panic exactly when the key of the object and the public
key of the private key differ. -/
theorem Decrypt_keys (s : Store) (z : Ref) (sk : PrivateKey) {kz : PublicKey}
    (hz : (s z).PublicKey = some kz) :
    Decrypt s z sk = .error .publicKeysNotEqual ↔ keysDiffer kz sk.PublicKey := by
  unfold Decrypt
  rw [hz, requirePublicKeysEqual_some]
  by_cases h : keysDiffer kz sk.PublicKey
  · simp only [h, if_true, iff_true]
    rfl
  · simp only [h, if_false, iff_false]
    refine bind_ne_error (by simp) (fun _ => ?_)
    refine bind_ne_error (getCipher_ne_error _ _ (by decide)) (fun c => ?_)
    split
    · simp
    · exact Decrypt_tail_ne_error s z sk c (by decide) (by decide)

/-- C7 (key-mismatch rejection).  For operands `x`, `y` and an object `z` that carry a public
key: `Add` and `Sub` fail with the public-keys-not-equal panic if and only if the keys of `x`
and `y` differ in one of the fields `Length`, `N`, `NSq`, `G`; `Decrypt` fails with that panic
if and only if the key of `z` and the public key of the private key differ in one of those
fields; in particular operands with different moduli are rejected by `Add` and `Sub`. -/
theorem key_mismatch (s : Store) (out x y z : Ref) (sk : PrivateKey) (kx ky kz : PublicKey)
    (hx : (s x).PublicKey = some kx) (hy : (s y).PublicKey = some ky)
    (hz : (s z).PublicKey = some kz) :
    (Add s out x y = .error .publicKeysNotEqual ↔
        (kx.Length ≠ ky.Length ∨ kx.N ≠ ky.N ∨ kx.NSq ≠ ky.NSq ∨ kx.G ≠ ky.G)) ∧
      (Sub s out x y = .error .publicKeysNotEqual ↔
        (kx.Length ≠ ky.Length ∨ kx.N ≠ ky.N ∨ kx.NSq ≠ ky.NSq ∨ kx.G ≠ ky.G)) ∧
      (Decrypt s z sk = .error .publicKeysNotEqual ↔
        (kz.Length ≠ sk.PublicKey.Length ∨ kz.N ≠ sk.PublicKey.N ∨
          kz.NSq ≠ sk.PublicKey.NSq ∨ kz.G ≠ sk.PublicKey.G)) ∧
      (kx.N ≠ ky.N → Add s out x y = .error .publicKeysNotEqual ∧
        Sub s out x y = .error .publicKeysNotEqual) := by
  refine ⟨Add_keys s out x y hx hy, Sub_keys s out x y hx hy, Decrypt_keys s z sk hz, ?_⟩
  intro hN
  exact ⟨(Add_keys s out x y hx hy).mpr (Or.inr (Or.inl hN)),
    (Sub_keys s out x y hx hy).mpr (Or.inr (Or.inl hN))⟩

/-- Method `DivPlaintext` raises its division-by-zero panic exactly when the low 64 bits of
the divisor are all zero. -/
theorem DivPlaintext_divisionByZero_iff (s : Store) (z x : Ref) (k : Int) :
    DivPlaintext s z x k = .error .divisionByZero ↔ bigInt64 k = 0 := by
  unfold DivPlaintext
  by_cases h : bigInt64 k = 0
  · simp only [h, if_true, iff_true]
  · simp only [h, if_false, iff_false]
    show ¬ ((getPublicKey (init s z) x >>= fun k1 => _) = _)
    refine bind_ne_error (getPublicKey_ne_error _ _ (by decide)) (fun k1 => ?_)
    refine bind_ne_error (bigModInverse_ne_error _ _ (by decide)) (fun o => ?_)
    cases o with
    | none => simp
    | some inv =>
      show ¬ ((getCipher _ x >>= fun cx => _) = _)
      refine bind_ne_error (getCipher_ne_error _ _ (by decide)) (fun _ => ?_)
      refine bind_ne_error (getCipher_ne_error _ _ (by decide)) (fun _ => ?_)
      refine bind_ne_error (getPublicKey_ne_error _ _ (by decide)) (fun _ => ?_)
      exact pure_ne_error _ _

/-- C8 (zero-divisor rejection), the code at the failing input: the divisor `2 ^ 64` is not
zero, yet `DivPlaintext` raises the division-by-zero panic on it, for every operand and
output, because the test reads `y.Int64()`, the low 64 bits of the divisor. -/
theorem divPlaintext_two_pow_64 (s : Store) (z x : Ref) :
    (2 : Int) ^ 64 ≠ 0 ∧ DivPlaintext s z x (2 ^ 64) = .error .divisionByZero :=
  ⟨by decide, (DivPlaintext_divisionByZero_iff s z x (2 ^ 64)).mpr (by decide)⟩

/-- Reduction of the factor of `N` modulo `N`, inside a residue modulo `N * N`. -/
theorem one_add_mul_emod (N k : Int) : 1 + k * N ≡ 1 + (k % N) * N [ZMOD N * N] := by
  apply Int.modEq_iff_dvd.mpr
  refine ⟨-(k / N), ?_⟩
  have e2 : k = k % N + N * (k / N) := (Int.emod_add_ediv k N).symm
  nth_rewrite 2 [e2]
  ring

/-- Powers of the generator `N + 1` modulo `N * N`. -/
theorem generator_pow (N : Int) (j : Nat) : (N + 1) ^ j ≡ 1 + j * N [ZMOD N * N] := by
  have h := one_add_mul_pow 1 N j
  have e1 : (1 : Int) + 1 * N = N + 1 := by ring
  have e2 : (1 : Int) + (j : Int) * 1 * N = 1 + j * N := by ring
  rw [e1, e2] at h
  exact h

/-- Method `Exp` on the generator `N + 1` modulo `N * N`, for every exponent `x`, negative
ones included: the exponent acts through its residue in `[0, N)`. -/
theorem bigExp_generator {N : Int} (hN : 1 < N) (x : Int) :
    bigExp (N + 1) x (N * N) = some ((N + 1) ^ (x % N).toNat % (N * N)) := by
  have hNN : 0 < N * N := by nlinarith
  have hb : (((x % N).toNat : Nat) : Int) = x % N :=
    Int.toNat_of_nonneg (Int.emod_nonneg _ (by omega))
  have htarget : (N + 1) ^ (x % N).toNat ≡ 1 + x * N [ZMOD N * N] := by
    have h1 := generator_pow N (x % N).toNat
    rw [hb] at h1
    exact h1.trans (one_add_mul_emod N x).symm
  by_cases hx : x < 0
  · have hw : (N + 1) * (1 - N) ≡ 1 [ZMOD N * N] := by
      apply Int.modEq_iff_dvd.mpr
      exact ⟨1, by ring⟩
    have hinv := bigModInverse_eq hNN hw
    have hg0 : decide (N + 1 < 0) = false := by
      have : ¬ (N + 1 < 0) := by omega
      simpa using this
    have hi0 : 0 ≤ (1 - N) % (N * N) := Int.emod_nonneg _ hNN.ne'
    simp only [bigExp, hx, if_true, hNN.ne', if_false, hinv, hg0]
    rw [bigExpCore_pos _ _ _ hNN, Int.natAbs_of_nonneg hi0]
    congr 1
    have h2 : ((1 - N) % (N * N)) ^ x.natAbs ≡ (1 + (-1) * N) ^ x.natAbs [ZMOD N * N] := by
      have e : (1 : Int) + (-1) * N = 1 - N := by ring
      rw [e]
      exact (Int.mod_modEq _ _).pow _
    have h3 := one_add_mul_pow (-1) N x.natAbs
    have e3 : (x.natAbs : Int) * (-1) * N = x * N := by
      have : (x.natAbs : Int) = -x := by omega
      rw [this]; ring
    rw [e3] at h3
    exact (h2.trans h3).trans htarget.symm
  · have hx0 : 0 ≤ x := not_lt.mp hx
    rw [bigExp_nonneg _ _ _ hx0 hNN]
    congr 1
    have h1 := generator_pow N x.toNat
    rw [Int.toNat_of_nonneg hx0] at h1
    exact h1.trans htarget.symm

/-- C9 (encryption bound check).  For a public key with `1 < N`, `NSq = N * N` and
`G = N + 1`, and a blinding value `r` that was drawn: `NewInt` fails with the
plaintext-too-large panic if and only if `N ≤ x`; for every `x < N` (zero and negative values
included) it returns an object bound to the given key whose cipher is
`(G ^ x mod NSq) * (r ^ N mod NSq) mod NSq`, the power of `G` for a negative `x` being taken
at the residue of `x` in `[0, N)`. -/
theorem newInt_bound_check (pk : PublicKey) (r x : Int) (hN : 1 < pk.N)
    (hSq : pk.NSq = pk.N * pk.N) (hG : pk.G = pk.N + 1) :
    (NewInt pk x (.ok r) = .error .plaintextTooLarge ↔ pk.N ≤ x) ∧
      (x < pk.N → NewInt pk x (.ok r) = .ok
        { Cipher := some (pk.G ^ (x % pk.N).toNat % pk.NSq * (r ^ pk.N.toNat % pk.NSq) % pk.NSq),
          PublicKey := some pk }) ∧
      (0 ≤ x → x < pk.N → NewInt pk x (.ok r) = .ok
        { Cipher := some (pk.G ^ x.toNat % pk.NSq * (r ^ pk.N.toNat % pk.NSq) % pk.NSq),
          PublicKey := some pk }) := by
  have hNN : 0 < pk.N * pk.N := by nlinarith
  have hrn := bigExp_nonneg r pk.N (pk.N * pk.N) (by omega) hNN
  have hg := bigExp_generator hN x
  have hret : x < pk.N → NewInt pk x (.ok r) = .ok
      { Cipher := some (pk.G ^ (x % pk.N).toNat % pk.NSq * (r ^ pk.N.toNat % pk.NSq) % pk.NSq),
        PublicKey := some pk } := by
    intro hx
    have hx0 : ¬ pk.N ≤ x := not_le.mpr hx
    simp only [NewInt, hx0, if_false, hSq, hG, hg, hrn, Option.getD_some, bigMod, hNN.ne', bind,
      Except.bind, pure, Except.pure]
  refine ⟨?_, hret, ?_⟩
  · by_cases hx : pk.N ≤ x
    · simp only [NewInt, hx, if_true]
    · simp only [hx, iff_false]
      rw [hret (not_le.mp hx)]
      simp
  · intro h0 hx
    rw [hret hx, Int.emod_eq_of_lt h0 hx]

/-- C10, as stated, fails: under the key pair built from the primes 5 and 7, `Decrypt` accepts
the negative cipher `-1` and returns `0`. -/
theorem decrypt_accepts_negative_cipher :
    NewKeyPair 3 17 (.ok 5) (.ok 7) =
        .ok (⟨3, 35, 1225, 36⟩, ⟨3, ⟨3, 35, 1225, 36⟩, 24, some 19, 17⟩) ∧
      (-1 : Int) < 0 ∧
      Decrypt (fun _ => ⟨some (-1), some ⟨3, 35, 1225, 36⟩⟩) 0
          ⟨3, ⟨3, 35, 1225, 36⟩, 24, some 19, 17⟩ =
        .ok (0, setCipher (fun _ => ⟨some (-1), some ⟨3, 35, 1225, 36⟩⟩) 0 0) :=
  ⟨NewKeyPair_five_seven, by decide, rfl⟩

/-- C10, amended (ciphertext range check on decryption).  For an object `z` with a cipher `c`
whose public key is the public key of the private key, `Decrypt` fails with the
ciphertext-out-of-range panic if and only if `NSq ≤ c`; every cipher below `NSq` passes the
check, negative ciphers included (when `NSq` is not negative). -/
theorem decrypt_range_check (s : Store) (z : Ref) (sk : PrivateKey) (c : Int)
    (hk : (s z).PublicKey = some sk.PublicKey) (hc : (s z).Cipher = some c) :
    (Decrypt s z sk = .error .cipherTooLarge ↔ sk.PublicKey.NSq ≤ c) ∧
      (c < 0 → 0 ≤ sk.PublicKey.NSq → Decrypt s z sk ≠ .error .cipherTooLarge) := by
  have hreq : requirePublicKeysEqual (s z).PublicKey (some sk.PublicKey) = .ok () := by
    rw [hk]
    simp only [requirePublicKeysEqual, and_self, if_true]
  have hget : getCipher s z = .ok c := by
    simp only [getCipher, hc]
  have hiff : Decrypt s z sk = .error .cipherTooLarge ↔ sk.PublicKey.NSq ≤ c := by
    unfold Decrypt
    rw [hreq, hget]
    by_cases h : sk.PublicKey.NSq ≤ c
    · simp only [h, iff_true]
      show (if sk.PublicKey.NSq ≤ c then _ else _) = _
      rw [if_pos h]
    · simp only [h, iff_false]
      show ¬ ((if sk.PublicKey.NSq ≤ c then _ else _) = _)
      rw [if_neg h]
      exact Decrypt_tail_ne_error s z sk c (by decide) (by decide)
  refine ⟨hiff, ?_⟩
  intro h0 hS h
  have := hiff.mp h
  omega

/-! ## Instances -/

/-- The primes 17 and 19 have the same bit length. -/
theorem size_seventeen_nineteen : Nat.size 17 = Nat.size 19 := by
  simp [Nat.size, Nat.binaryRec]

/-- Instance of C1: primes 17 and 19, threshold 161, blinding value 2, plaintext -100. -/
theorem roundtrip_witness :
    ∃ pk sk e, NewKeyPair 5 161 (.ok 17) (.ok 19) = .ok (pk, sk) ∧
      NewInt pk (-100) (.ok 2) = .ok e ∧
      ∀ (s : Store) (z : Ref), s z = e → ∃ s1, Decrypt s z sk = .ok (-100, s1) :=
  roundtrip 5 161 17 19 2 (-100) (by norm_num) (by norm_num) (by decide) (by decide)
    (by decide) size_seventeen_nineteen (by norm_num) (by decide) (by decide)

/-- Instance of C2: primes 17 and 19, threshold 161, plaintexts -100 and 75, sum -25. -/
theorem add_homomorphic_witness :
    ∃ pk sk ex ey, NewKeyPair 5 161 (.ok 17) (.ok 19) = .ok (pk, sk) ∧
      NewInt pk (-100) (.ok 2) = .ok ex ∧ NewInt pk 75 (.ok 3) = .ok ey ∧
      ∀ (s : Store) (z a b : Ref), a ≠ z → b ≠ z → s a = ex → s b = ey →
        ∃ s1 s2, Add s z a b = .ok s1 ∧ Decrypt s1 z sk = .ok (-100 + 75, s2) :=
  add_homomorphic 5 161 17 19 2 3 (-100) 75 (by norm_num) (by norm_num) (by decide)
    (by decide) (by decide) size_seventeen_nineteen (by norm_num) (by decide) (by decide)
    (by decide) (by decide) (by decide)

/-- Instance of C3: primes 17 and 19, threshold 161, plaintexts 75 and 100, difference -25. -/
theorem sub_homomorphic_witness :
    ∃ pk sk ex ey, NewKeyPair 5 161 (.ok 17) (.ok 19) = .ok (pk, sk) ∧
      NewInt pk 75 (.ok 2) = .ok ex ∧ NewInt pk 100 (.ok 3) = .ok ey ∧
      ∀ (s : Store) (z a b : Ref), a ≠ z → b ≠ z → s a = ex → s b = ey →
        ∃ s1 s2, Sub s z a b = .ok s1 ∧ Decrypt s1 z sk = .ok (75 - 100, s2) :=
  sub_homomorphic 5 161 17 19 2 3 75 100 (by norm_num) (by norm_num) (by decide)
    (by decide) (by decide) size_seventeen_nineteen (by norm_num) (by decide) (by decide)
    (by decide) (by decide) (by decide)

/-- Instance of C4: primes 17 and 19, threshold 161, plaintext -100 and scalar 75. -/
theorem addPlaintext_homomorphic_witness :
    ∃ pk sk ex, NewKeyPair 5 161 (.ok 17) (.ok 19) = .ok (pk, sk) ∧
      NewInt pk (-100) (.ok 2) = .ok ex ∧
      ∀ (s : Store) (z a : Ref), a ≠ z → s a = ex →
        ∃ s1 s2, AddPlaintext s z a 75 = .ok s1 ∧ Decrypt s1 z sk = .ok (-100 + 75, s2) :=
  addPlaintext_homomorphic 5 161 17 19 2 (-100) 75 (by norm_num) (by norm_num) (by decide)
    (by decide) (by decide) size_seventeen_nineteen (by norm_num) (by decide) (by decide)
    (by decide)

/-- Instance of C5: primes 17 and 19, threshold 161, plaintext 20 and scalar -7. -/
theorem mulPlaintext_homomorphic_witness :
    ∃ pk sk ex, NewKeyPair 5 161 (.ok 17) (.ok 19) = .ok (pk, sk) ∧
      NewInt pk 20 (.ok 2) = .ok ex ∧
      ∀ (s : Store) (z a : Ref), a ≠ z → s a = ex →
        ∃ s1 s2, MulPlaintext s z a (-7) = .ok s1 ∧ Decrypt s1 z sk = .ok (20 * -7, s2) :=
  mulPlaintext_homomorphic 5 161 17 19 2 20 (-7) (by norm_num) (by norm_num) (by decide)
    (by decide) (by decide) size_seventeen_nineteen (by norm_num) (by decide) (by decide)
    (by decide)

/-- Instance of the amended C6: primes 17 and 19, threshold 161, plaintext -9, divisor 3. -/
theorem divPlaintext_exact_witness :
    ∃ pk sk ex, NewKeyPair 5 161 (.ok 17) (.ok 19) = .ok (pk, sk) ∧
      NewInt pk (-9) (.ok 2) = .ok ex ∧
      ∀ (s : Store) (z a : Ref), a ≠ z → s a = ex →
        ∃ s1 s2, DivPlaintext s z a 3 = .ok s1 ∧ Decrypt s1 z sk = .ok (-9 / 3, s2) :=
  divPlaintext_exact 5 161 17 19 2 (-9) 3 (by norm_num) (by norm_num) (by decide)
    (by decide) (by decide) size_seventeen_nineteen (by norm_num) (by decide) (by decide)
    (by decide) (by decide) (by decide)

/-- Instance of C7: operands under the keys of moduli 35 and 323 are rejected by `Add`. -/
theorem key_mismatch_witness :
    Add (fun i => if i = 1 then ⟨some 718, some ⟨3, 35, 1225, 36⟩⟩
        else ⟨some 5, some ⟨5, 323, 104329, 324⟩⟩) 0 1 2 = .error .publicKeysNotEqual :=
  ((key_mismatch (fun i => if i = 1 then ⟨some 718, some ⟨3, 35, 1225, 36⟩⟩
        else ⟨some 5, some ⟨5, 323, 104329, 324⟩⟩) 0 1 2 1
      ⟨3, ⟨3, 35, 1225, 36⟩, 24, some 19, 17⟩ ⟨3, 35, 1225, 36⟩ ⟨5, 323, 104329, 324⟩
      ⟨3, 35, 1225, 36⟩ rfl rfl rfl).2.2.2 (by decide)).1

/-- Instance of C9: under the public key of modulus 35, the plaintext 35 is refused and the
plaintext 34 is encrypted. -/
theorem newInt_bound_check_witness :
    NewInt ⟨3, 35, 1225, 36⟩ 35 (.ok 2) = .error .plaintextTooLarge ∧
      NewInt ⟨3, 35, 1225, 36⟩ 34 (.ok 2) = .ok
        { Cipher := some (36 ^ 34 % 1225 * (2 ^ 35 % 1225) % 1225),
          PublicKey := some ⟨3, 35, 1225, 36⟩ } :=
  ⟨(newInt_bound_check ⟨3, 35, 1225, 36⟩ 2 35 (by decide) rfl rfl).1.mpr (by decide),
    (newInt_bound_check ⟨3, 35, 1225, 36⟩ 2 34 (by decide) rfl rfl).2.2 (by decide)
      (by decide)⟩

/-- Instance of the amended C10: under the key of modulus 35, the cipher 1225 is refused. -/
theorem decrypt_range_check_witness :
    Decrypt (fun _ => ⟨some 1225, some ⟨3, 35, 1225, 36⟩⟩) 0
      ⟨3, ⟨3, 35, 1225, 36⟩, 24, some 19, 17⟩ = .error .cipherTooLarge :=
  (decrypt_range_check (fun _ => ⟨some 1225, some ⟨3, 35, 1225, 36⟩⟩) 0
    ⟨3, ⟨3, 35, 1225, 36⟩, 24, some 19, 17⟩ 1225 rfl rfl).1.mpr (by decide)

/-! ## Decryption formula and key derivation -/

/-- Method `Decrypt` on an object with the key of the private key and a cipher below `NSq`,
for a private key with `0 ≤ L`, `N ≠ 0` and a non-nil `U`: it returns the value of the
specification's formula and leaves it in `z.Cipher`. -/
theorem Decrypt_eq_specDecrypt {s : Store} {z : Ref} {sk : PrivateKey} {c u : Int}
    (hk : (s z).PublicKey = some sk.PublicKey) (hc : (s z).Cipher = some c)
    (h1 : c < sk.PublicKey.NSq) (hS : 0 < sk.PublicKey.NSq) (hL : 0 ≤ sk.L)
    (hN : sk.PublicKey.N ≠ 0) (hU : sk.U = some u) :
    Decrypt s z sk = .ok
      (specDecrypt sk.PublicKey.N sk.PublicKey.NSq sk.L u sk.Threshold c,
        setCipher s z (specDecrypt sk.PublicKey.N sk.PublicKey.NSq sk.L u sk.Threshold c)) := by
  have hexp := bigExp_nonneg c sk.L sk.PublicKey.NSq hL hS
  have hlt : ¬ sk.PublicKey.NSq ≤ c := not_le.mpr h1
  simp only [Decrypt, hk, hc, requirePublicKeysEqual, and_self, if_true, getCipher, hlt, if_false,
    hexp, bigDiv, hN, hU, bigMod, specDecrypt, specResidue, gt_iff_lt, bind, Except.bind]

/-- C11 (decryption formula and sign recovery).  For a private key with `0 ≤ L`, `0 < N` and a
non-nil `U`, and an object `z` carrying the public key of the private key and a cipher `c`
with `0 ≤ c < NSq`: `Decrypt` returns `m` when `m ≤ threshold` and `m − N` when
`m > threshold`, where `m = ((c^L mod NSq − 1) / N) · U mod N`; the returned value lies in
`[0, threshold]` or in the open interval `(threshold − N, 0)`. -/
theorem decrypt_formula (s : Store) (z : Ref) (sk : PrivateKey) (c u : Int)
    (hk : (s z).PublicKey = some sk.PublicKey) (hc : (s z).Cipher = some c)
    (h0 : 0 ≤ c) (h1 : c < sk.PublicKey.NSq) (hL : 0 ≤ sk.L) (hN : 0 < sk.PublicKey.N)
    (hU : sk.U = some u) :
    ∃ v s1, Decrypt s z sk = .ok (v, s1) ∧
      (specResidue sk.PublicKey.N sk.PublicKey.NSq sk.L u c ≤ sk.Threshold →
        v = specResidue sk.PublicKey.N sk.PublicKey.NSq sk.L u c) ∧
      (sk.Threshold < specResidue sk.PublicKey.N sk.PublicKey.NSq sk.L u c →
        v = specResidue sk.PublicKey.N sk.PublicKey.NSq sk.L u c - sk.PublicKey.N) ∧
      ((0 ≤ v ∧ v ≤ sk.Threshold) ∨ (sk.Threshold - sk.PublicKey.N < v ∧ v < 0)) := by
  have hS : 0 < sk.PublicKey.NSq := lt_of_le_of_lt h0 h1
  have hm0 : 0 ≤ specResidue sk.PublicKey.N sk.PublicKey.NSq sk.L u c :=
    Int.emod_nonneg _ hN.ne'
  have hm1 : specResidue sk.PublicKey.N sk.PublicKey.NSq sk.L u c < sk.PublicKey.N :=
    Int.emod_lt_of_pos _ hN
  refine ⟨_, _, Decrypt_eq_specDecrypt hk hc h1 hS hL hN.ne' hU, ?_, ?_, ?_⟩
  · intro h
    simp only [specDecrypt, gt_iff_lt, not_lt.mpr h, if_false]
  · intro h
    simp only [specDecrypt, gt_iff_lt, h, if_true]
  · unfold specDecrypt
    split
    · right
      constructor <;> omega
    · left
      constructor <;> omega

/-- For odd primes of the same bit length, equal or not, `(p - 1) * (q - 1)` is prime to
`p * q`. -/
theorem coprime_of_odd_primes {p q : Nat} (hp : p.Prime) (hq : q.Prime)
    (hop : Odd p) (hoq : Odd q) (hsz : p.size = q.size) :
    Nat.Coprime ((p - 1) * (q - 1)) (p * q) := by
  by_cases hne : p = q
  · subst hne
    have hp2 := hp.two_le
    have a1 : ¬ p ∣ p - 1 := Nat.not_dvd_of_pos_of_lt (by omega) (by omega)
    have c1 : Nat.Coprime (p - 1) p := ((Nat.Prime.coprime_iff_not_dvd hp).mpr a1).symm
    exact Nat.Coprime.mul_right (Nat.Coprime.mul c1 c1) (Nat.Coprime.mul c1 c1)
  · exact coprime_of_primes hp hq hne hop hoq hsz

/-- C12 (key derivation).  For every key length `b`, threshold `t` and primes `p1`, `p2` of
`b` bits as `rand.Prime` draws them (it sets the lowest bit, so they are odd; they may be
equal): `NewKeyPair` returns the public key `(b, N, N * N, N + 1)` with `N = p1 * p2` and the
private key with that public key, `L = (p1 − 1) * (p2 − 1)`, the threshold unchanged and a
non-nil `U` in `[0, N)` with `(L * U) mod N = 1`. -/
theorem key_derivation (b : Nat) (t : Int) (p1 p2 : Nat) (hp1 : p1.Prime) (hp2 : p2.Prime)
    (ho1 : Odd p1) (ho2 : Odd p2) (hs1 : p1.size = b) (hs2 : p2.size = b) :
    ∃ u : Int, NewKeyPair b t (.ok p1) (.ok p2) = .ok
        ({ Length := b, N := (p1 : Int) * p2, NSq := (p1 : Int) * p2 * ((p1 : Int) * p2),
           G := (p1 : Int) * p2 + 1 },
         { Length := b,
           PublicKey := { Length := b, N := (p1 : Int) * p2,
                          NSq := (p1 : Int) * p2 * ((p1 : Int) * p2), G := (p1 : Int) * p2 + 1 },
           L := ((p1 : Int) - 1) * ((p2 : Int) - 1), U := some u, Threshold := t }) ∧
      0 ≤ u ∧ u < (p1 : Int) * p2 ∧
      (((p1 : Int) - 1) * ((p2 : Int) - 1) * u) % ((p1 : Int) * p2) = 1 := by
  have hcop := coprime_of_odd_primes hp1 hp2 ho1 ho2 (hs1.trans hs2.symm)
  have h1 := hp1.two_le
  have h2 := hp2.two_le
  have hn4 : 4 ≤ p1 * p2 := by nlinarith
  have hcastN : ((p1 * p2 : Nat) : Int) = (p1 : Int) * p2 := by push_cast; rfl
  have hN : (1 : Int) < (p1 : Int) * p2 := by
    have : ((4 : Nat) : Int) ≤ ((p1 * p2 : Nat) : Int) := by exact_mod_cast hn4
    rw [hcastN] at this
    omega
  obtain ⟨w, hw⟩ := Int.mod_coprime hcop
  have hl : (((p1 - 1) * (p2 - 1) : Nat) : Int) = ((p1 : Int) - 1) * ((p2 : Int) - 1) := by
    rw [Nat.cast_mul, Nat.cast_sub (by omega), Nat.cast_sub (by omega)]; simp
  rw [hl, hcastN] at hw
  have hinv := bigModInverse_eq (by omega : (0 : Int) < (p1 : Int) * p2) hw
  refine ⟨w % ((p1 : Int) * p2), ?_, Int.emod_nonneg _ (by omega), Int.emod_lt_of_pos _ (by omega),
    ?_⟩
  · simp only [NewKeyPair, hinv, bind, Except.bind, pure, Except.pure]
  · have h3 : ((p1 : Int) - 1) * ((p2 : Int) - 1) * (w % ((p1 : Int) * p2)) ≡ 1
        [ZMOD (p1 : Int) * p2] := ((Int.mod_modEq w _).mul_left _).trans hw
    have h4 : (1 : Int) % ((p1 : Int) * p2) = 1 := Int.emod_eq_of_lt (by omega) hN
    have h5 : ((p1 : Int) - 1) * ((p2 : Int) - 1) * (w % ((p1 : Int) * p2)) % ((p1 : Int) * p2) =
        1 % ((p1 : Int) * p2) := h3
    rw [h4] at h5
    exact h5

/-! ## What the receiver holds after a call -/

/-- Function `NewKeyPair` on the 6-bit primes 53 and 59. -/
theorem NewKeyPair_example (t : Int) :
    NewKeyPair 6 t (.ok 53) (.ok 59) = .ok (examplePublicKey, examplePrivateKey t) := by
  have h : bigModInverse 3016 3127 = .ok (some (2141 % 3127)) :=
    bigModInverse_eq (by decide) (by decide)
  simp only [NewKeyPair, bind, Except.bind, pure, Except.pure]
  norm_num
  rw [h]
  rfl

/-- Method `Exp` with the exponent `-1` on a non-negative base: the inverse of the base. -/
theorem bigExp_neg_one {c m w : Int} (hm : 0 < m) (hc : 0 ≤ c) (h : c * w ≡ 1 [ZMOD m]) :
    bigExp c (-1) m = some (w % m) := by
  have hinv := bigModInverse_eq hm h
  have hc0 : decide (c < 0) = false := by simpa using hc
  have hw0 : 0 ≤ w % m := Int.emod_nonneg _ hm.ne'
  have hneg : (-1 : Int) < 0 := by decide
  simp only [bigExp, hneg, if_true, hm.ne', if_false, hinv, hc0]
  rw [bigExpCore_pos _ _ _ hm, Int.natAbs_of_nonneg hw0]
  have e : (-1 : Int).natAbs = 1 := rfl
  rw [e, pow_one, Int.emod_emod_of_dvd _ (dvd_refl m)]

/-- Method `init` does nothing on an object whose cipher is not nil. -/
theorem init_of_some {s : Store} {z : Ref} {c : Int} (h : (s z).Cipher = some c) :
    init s z = s := by
  simp [init, h]

/-- Method `Decrypt` leaves the value it returns in `z.Cipher`. -/
theorem Decrypt_store {s s1 : Store} {z : Ref} {sk : PrivateKey} {v : Int}
    (h : Decrypt s z sk = .ok (v, s1)) : s1 = setCipher s z v := by
  unfold Decrypt at h
  cases h1 : requirePublicKeysEqual (s z).PublicKey (some sk.PublicKey) with
  | error e => rw [h1] at h; cases h
  | ok _ =>
    rw [h1] at h
    cases h2 : getCipher s z with
    | error e => rw [h2] at h; cases h
    | ok c =>
      rw [h2] at h
      simp only [bind, Except.bind] at h
      split at h
      · cases h
      · split at h
        · cases h
        · split at h
          · cases h
          · split at h
            · cases h
            · split at h
              · cases h
              · cases h
                rfl

/-- The value that `Decrypt` returns depends only on the object it decrypts. -/
theorem Decrypt_value_congr {s t : Store} {z w : Ref} {sk : PrivateKey} (h : s z = t w) :
    (Decrypt s z sk).map Prod.fst = (Decrypt t w sk).map Prod.fst := by
  have hg : getCipher s z = getCipher t w := by simp only [getCipher, h]
  unfold Decrypt
  rw [hg, h]
  cases requirePublicKeysEqual (t w).PublicKey (some sk.PublicKey) with
  | error e => rfl
  | ok _ =>
    cases getCipher t w with
    | error e => rfl
    | ok c =>
      simp only [bind, Except.bind]
      split
      · rfl
      · split
        · rfl
        · split
          · rfl
          · split
            · rfl
            · split
              · rfl
              · rfl

set_option exponentiation.threshold 4000 in
/-- C13, the code at the failing input: under the key pair built from the primes 53 and 59
(threshold 1000), the object that `NewInt` returns for the plaintext 5 (blinding value 61)
has the cipher 4484378; `Decrypt` returns 5 and leaves 5 in `z.Cipher`, and a second
`Decrypt` of the same object returns -49. -/
theorem decrypt_overwrites_cipher :
    NewKeyPair 6 1000 (.ok 53) (.ok 59) = .ok (examplePublicKey, examplePrivateKey 1000) ∧
      NewInt examplePublicKey 5 (.ok 61) = .ok ⟨some 4484378, some examplePublicKey⟩ ∧
      Decrypt (exampleStore ⟨some 4484378, some examplePublicKey⟩ EncryptedInt.new) 1
          (examplePrivateKey 1000) =
        .ok (5, setCipher (exampleStore ⟨some 4484378, some examplePublicKey⟩
          EncryptedInt.new) 1 5) ∧
      setCipher (exampleStore ⟨some 4484378, some examplePublicKey⟩ EncryptedInt.new) 1 5 1 =
        ⟨some 5, some examplePublicKey⟩ ∧
      Decrypt (setCipher (exampleStore ⟨some 4484378, some examplePublicKey⟩
          EncryptedInt.new) 1 5) 1 (examplePrivateKey 1000) =
        .ok (-49, setCipher (setCipher (exampleStore ⟨some 4484378, some examplePublicKey⟩
          EncryptedInt.new) 1 5) 1 (-49)) :=
  ⟨NewKeyPair_example 1000, rfl, rfl, rfl, rfl⟩

/-! ## The operators with the operand itself as output -/

/-- Method `Add` with its first operand as output: the product of the two ciphers. -/
theorem Add_reused {s : Store} {x y : Ref} {pk : PublicKey} {cx cy : Int}
    (hx : s x = { Cipher := some cx, PublicKey := some pk })
    (hy : s y = { Cipher := some cy, PublicKey := some pk }) (hN : pk.NSq ≠ 0) :
    ∃ s1, Add s x x y = .ok s1 ∧
      s1 x = { Cipher := some (cx * cy % pk.NSq), PublicKey := some pk } := by
  have hi : init s x = s := init_of_some (c := cx) (by rw [hx])
  refine ⟨setPublicKey (setCipher (setCipher s x (cx * cy)) x (cx * cy % pk.NSq)) x (some pk),
    ?_, ?_⟩
  · simp only [Add, hx, hy, requirePublicKeysEqual, and_self, if_true, hi, getCipher,
      getPublicKey, setCipher_same, bigMod, hN, if_false, bind, Except.bind, pure, Except.pure]
  · simp [hx]

/-- Method `MulPlaintext` with its operand as output: the power of the cipher. -/
theorem MulPlaintext_reused {s : Store} {x : Ref} {pk : PublicKey} {cx k v : Int}
    (hx : s x = { Cipher := some cx, PublicKey := some pk })
    (hv : bigExp cx k pk.NSq = some v) :
    ∃ s1, MulPlaintext s x x k = .ok s1 ∧
      s1 x = { Cipher := some v, PublicKey := some pk } := by
  have hi : init s x = s := init_of_some (c := cx) (by rw [hx])
  refine ⟨setPublicKey (setCipher s x v) x (some pk), ?_, ?_⟩
  · simp only [MulPlaintext, hi, getCipher, getPublicKey, hx, hv, setCipher_same, bind,
      Except.bind, pure, Except.pure]
  · simp [hx]

/-- Method `Sub` with its first operand `x` as output: the inner `MulPlaintext` has
overwritten `x.Cipher` when `Mul` reads it, and the result is the square of the inverse of
the cipher of `y`, whatever the cipher of `x` was. -/
theorem Sub_reused {s : Store} {x y : Ref} {pk : PublicKey} {cx cy v : Int}
    (hxy : y ≠ x) (hx : s x = { Cipher := some cx, PublicKey := some pk })
    (hy : s y = { Cipher := some cy, PublicKey := some pk }) (hN : pk.NSq ≠ 0)
    (hv : bigExp cy (-1) pk.NSq = some v) :
    ∃ s1, Sub s x x y = .ok s1 ∧
      s1 x = { Cipher := some (v * v % pk.NSq), PublicKey := some pk } := by
  have hi : init s x = s := init_of_some (c := cx) (by rw [hx])
  obtain ⟨s2, h2, h2x, -⟩ := MulPlaintext_fresh (s := s) hxy hy hv
  refine ⟨setPublicKey (setCipher (setCipher s2 x (v * v)) x (v * v % pk.NSq)) x (some pk),
    ?_, ?_⟩
  · simp only [Sub, hx, hy, requirePublicKeysEqual, and_self, if_true, hi, h2, getCipher,
      getPublicKey, h2x, setCipher_same, bigMod, hN, if_false, bind, Except.bind, pure,
      Except.pure]
  · simp [h2x]

/-- Method `AddPlaintext` with its operand `x` as output: `Exp` has overwritten `x.Cipher`
when `Mul` reads it, and the result is the square of the power of `G`, whatever the cipher of
`x` was. -/
theorem AddPlaintext_reused {s : Store} {x : Ref} {pk : PublicKey} {cx k v : Int}
    (hx : s x = { Cipher := some cx, PublicKey := some pk }) (hN : pk.NSq ≠ 0)
    (hv : bigExp pk.G k pk.NSq = some v) :
    ∃ s1, AddPlaintext s x x k = .ok s1 ∧
      s1 x = { Cipher := some (v * v % pk.NSq), PublicKey := some pk } := by
  have hi : init s x = s := init_of_some (c := cx) (by rw [hx])
  refine ⟨setPublicKey (setCipher (setCipher (setCipher s x v) x (v * v)) x
    (v * v % pk.NSq)) x (some pk), ?_, ?_⟩
  · simp only [AddPlaintext, hi, getCipher, getPublicKey, hx, hv, setCipher_same, bigMod, hN,
      if_false, bind, Except.bind, pure, Except.pure]
  · simp [hx]

/-- Method `DivPlaintext` with its operand `x` as output: `ModInverse` has overwritten
`x.Cipher` when `Exp` reads it, and the result is the inverse of the divisor raised to
itself, whatever the cipher of `x` was. -/
theorem DivPlaintext_reused {s : Store} {x : Ref} {pk : PublicKey} {cx k inv v : Int}
    (hx : s x = { Cipher := some cx, PublicKey := some pk })
    (hk : bigInt64 k ≠ 0) (hinv : bigModInverse k pk.N = .ok (some inv))
    (hv : bigExp inv inv pk.NSq = some v) :
    ∃ s1, DivPlaintext s x x k = .ok s1 ∧
      s1 x = { Cipher := some v, PublicKey := some pk } := by
  have hi : init s x = s := init_of_some (c := cx) (by rw [hx])
  refine ⟨setPublicKey (setCipher (setCipher s x inv) x v) x (some pk), ?_, ?_⟩
  · simp only [DivPlaintext, hi, hk, if_false, getCipher, getPublicKey, hx, hinv,
      setCipher_same, hv, bind, Except.bind, pure, Except.pure]
  · simp [hx]

set_option exponentiation.threshold 4000 in
/-- C14, the code at the failing inputs: under the key pair built from the primes 53 and 59
(threshold 1000), object 1 encrypts 20 (cipher 6901549), object 2 encrypts 5 (cipher
4484378) and object 0 is `new(Int)`.  With the output 0, `Sub`, `AddPlaintext` (scalar 7)
and `DivPlaintext` (scalar 4) give ciphers that decrypt to 15, 27 and 5; with the operand 1
itself as output they give other ciphers, which decrypt to -10, 14 and -1441. -/
theorem reused_output_differs :
    NewInt examplePublicKey 20 (.ok 61) = .ok ⟨some 6901549, some examplePublicKey⟩ ∧
    NewInt examplePublicKey 5 (.ok 61) = .ok ⟨some 4484378, some examplePublicKey⟩ ∧
    (∃ s1, Sub (exampleStore ⟨some 6901549, some examplePublicKey⟩
        ⟨some 4484378, some examplePublicKey⟩) 0 1 2 = .ok s1 ∧
      s1 0 = ⟨some 46906, some examplePublicKey⟩ ∧
      (Decrypt s1 0 (examplePrivateKey 1000)).map Prod.fst = .ok 15) ∧
    (∃ s1, Sub (exampleStore ⟨some 6901549, some examplePublicKey⟩
        ⟨some 4484378, some examplePublicKey⟩) 1 1 2 = .ok s1 ∧
      s1 1 = ⟨some 3819091, some examplePublicKey⟩ ∧
      (Decrypt s1 1 (examplePrivateKey 1000)).map Prod.fst = .ok (-10)) ∧
    (∃ s1, AddPlaintext (exampleStore ⟨some 6901549, some examplePublicKey⟩
        ⟨some 4484378, some examplePublicKey⟩) 0 1 7 = .ok s1 ∧
      s1 0 = ⟨some 2814560, some examplePublicKey⟩ ∧
      (Decrypt s1 0 (examplePrivateKey 1000)).map Prod.fst = .ok 27) ∧
    (∃ s1, AddPlaintext (exampleStore ⟨some 6901549, some examplePublicKey⟩
        ⟨some 4484378, some examplePublicKey⟩) 1 1 7 = .ok s1 ∧
      s1 1 = ⟨some 43779, some examplePublicKey⟩ ∧
      (Decrypt s1 1 (examplePrivateKey 1000)).map Prod.fst = .ok 14) ∧
    (∃ s1, DivPlaintext (exampleStore ⟨some 6901549, some examplePublicKey⟩
        ⟨some 4484378, some examplePublicKey⟩) 0 1 4 = .ok s1 ∧
      s1 0 = ⟨some 2647534, some examplePublicKey⟩ ∧
      (Decrypt s1 0 (examplePrivateKey 1000)).map Prod.fst = .ok 5) ∧
    (∃ s1, DivPlaintext (exampleStore ⟨some 6901549, some examplePublicKey⟩
        ⟨some 4484378, some examplePublicKey⟩) 1 1 4 = .ok s1 ∧
      s1 1 = ⟨some 6019538, some examplePublicKey⟩ ∧
      (Decrypt s1 1 (examplePrivateKey 1000)).map Prod.fst = .ok (-1441)) := by
  have hN : examplePublicKey.NSq ≠ 0 := by decide
  have hinvY : bigExp 4484378 (-1) examplePublicKey.NSq = some 1388833 :=
    bigExp_neg_one (w := 1388833) (by decide) (by decide) (by decide)
  have hG : bigExp examplePublicKey.G 7 examplePublicKey.NSq = some 21890 := rfl
  have hinvK : bigModInverse 4 examplePublicKey.N = .ok (some 782) :=
    bigModInverse_eq (w := 782) (by decide) (by decide)
  have hE1 : bigExp 6901549 782 examplePublicKey.NSq = some 2647534 := rfl
  have hE2 : bigExp 782 782 examplePublicKey.NSq = some 6019538 := rfl
  have dec : ∀ (s1 : Store) (z : Ref) (c v : Int),
      s1 z = ⟨some c, some examplePublicKey⟩ →
      (Decrypt (fun _ => ⟨some c, some examplePublicKey⟩) 0 (examplePrivateKey 1000)).map
        Prod.fst = .ok v →
      (Decrypt s1 z (examplePrivateKey 1000)).map Prod.fst = .ok v := by
    intro s1 z c v hz h
    rw [Decrypt_value_congr (t := fun _ => ⟨some c, some examplePublicKey⟩) (w := 0) hz]
    exact h
  refine ⟨rfl, rfl, ?_, ?_, ?_, ?_, ?_, ?_⟩
  · obtain ⟨s1, h, hz, -⟩ := Sub_fresh (s := exampleStore ⟨some 6901549, some examplePublicKey⟩
      ⟨some 4484378, some examplePublicKey⟩) (z := 0) (x := 1) (y := 2) (by decide) (by decide)
      rfl rfl hN hinvY
    exact ⟨s1, h, hz, dec s1 0 _ _ hz rfl⟩
  · obtain ⟨s1, h, hz⟩ := Sub_reused (s := exampleStore ⟨some 6901549, some examplePublicKey⟩
      ⟨some 4484378, some examplePublicKey⟩) (x := 1) (y := 2) (by decide) rfl rfl hN hinvY
    exact ⟨s1, h, hz, dec s1 1 _ _ hz rfl⟩
  · obtain ⟨s1, h, hz, -⟩ := AddPlaintext_fresh
      (s := exampleStore ⟨some 6901549, some examplePublicKey⟩
      ⟨some 4484378, some examplePublicKey⟩) (z := 0) (x := 1) (by decide) rfl hN hG
    exact ⟨s1, h, hz, dec s1 0 _ _ hz rfl⟩
  · obtain ⟨s1, h, hz⟩ := AddPlaintext_reused
      (s := exampleStore ⟨some 6901549, some examplePublicKey⟩
      ⟨some 4484378, some examplePublicKey⟩) (x := 1) rfl hN hG
    exact ⟨s1, h, hz, dec s1 1 _ _ hz rfl⟩
  · obtain ⟨s1, h, hz, -⟩ := DivPlaintext_fresh
      (s := exampleStore ⟨some 6901549, some examplePublicKey⟩
      ⟨some 4484378, some examplePublicKey⟩) (z := 0) (x := 1) (k := 4) (by decide) rfl
      (by decide) hinvK hE1
    exact ⟨s1, h, hz, dec s1 0 _ _ hz rfl⟩
  · obtain ⟨s1, h, hz⟩ := DivPlaintext_reused
      (s := exampleStore ⟨some 6901549, some examplePublicKey⟩
      ⟨some 4484378, some examplePublicKey⟩) (x := 1) (k := 4) rfl (by decide) hinvK hE2
    exact ⟨s1, h, hz, dec s1 1 _ _ hz rfl⟩

set_option exponentiation.threshold 4000 in
/-- C15, the code at the failing input: under the public key built from the primes 53 and
59, `NewInt` with the plaintext 5 and the blinding value 53 (a 6-bit prime, a factor of `N`)
returns the cipher 9028126, which lies in `[0, NSq)` and has no inverse modulo `NSq`.
`MulPlaintext` of that object by the scalar -1, into an output object that holds -3 (what
`Decrypt` leaves behind for the plaintext -3), returns with the cipher -3 still in the
output: `Exp` returned nil and the result was dropped. -/
theorem mulPlaintext_keeps_stale_cipher :
    NewInt examplePublicKey 5 (.ok 53) = .ok ⟨some 9028126, some examplePublicKey⟩ ∧
      (0 : Int) ≤ 9028126 ∧ (9028126 : Int) < examplePublicKey.NSq ∧
      (MulPlaintext (exampleStore ⟨some 9028126, some examplePublicKey⟩
          ⟨some (-3), some examplePublicKey⟩) 2 1 (-1)).map (fun s1 => s1 2) =
        .ok ⟨some (-3), some examplePublicKey⟩ ∧
      ¬ (0 : Int) ≤ -3 :=
  ⟨rfl, by decide, by decide, rfl, by decide⟩

/-! ## Thresholds, blinding values and residues -/

/-- The primes 53 and 59 have the same bit length. -/
theorem size_fiftythree_fiftynine : Nat.size 53 = Nat.size 59 := by
  simp [Nat.size, Nat.binaryRec]

/-- The key pair built from the primes 53 and 59 is good, whatever the threshold. -/
theorem exampleKey_good (t : Int) :
    ∃ l u, GoodKey examplePublicKey (examplePrivateKey t) l u := by
  obtain ⟨pk, sk, l, u, hkey, hk, -, -⟩ := @NewKeyPair_good 6 t 53 59
    (by norm_num) (by norm_num) (by decide) (by decide) (by decide) size_fiftythree_fiftynine
  rw [NewKeyPair_example] at hkey
  simp only [Except.ok.injEq, Prod.mk.injEq] at hkey
  obtain ⟨h1, h2⟩ := hkey
  subst h1 h2
  exact ⟨l, u, hk⟩

/-- The signed reading of a plaintext of magnitude below a threshold `t < N`. -/
theorem signedValue_of_lt {N t x : Int} (htN : t < N) (hx : |x| < t) :
    signedValue N t x = if x < 0 ∧ x + N ≤ t then x + N else x := by
  have h1 := abs_lt.mp hx
  unfold signedValue
  by_cases h0 : 0 ≤ x
  · have e : x % N = x := Int.emod_eq_of_lt h0 (by omega)
    rw [e, if_neg (by omega), if_neg (by omega)]
  · have h2 : x % N = x + N := by
      apply emod_eq_of_modEq (by omega) (by omega)
      apply Int.modEq_iff_dvd.mpr
      exact ⟨1, by ring⟩
    rw [h2]
    by_cases h3 : x + N ≤ t
    · rw [if_neg (by omega), if_pos ⟨by omega, h3⟩]
    · rw [if_pos (by omega), if_neg (by omega)]
      ring

/-- C16, as stated, fails: under the key pair built from the primes 53 and 59 with the
threshold 3000, which is below `N = 3127` and above the magnitude of the plaintext -1000,
`Decrypt` of the encryption of -1000 (blinding value 61) returns 2127. -/
theorem threshold_below_modulus_insufficient :
    NewKeyPair 6 3000 (.ok 53) (.ok 59) = .ok (examplePublicKey, examplePrivateKey 3000) ∧
      (3000 : Int) < examplePublicKey.N ∧ |(-1000 : Int)| < 3000 ∧
      Int.gcd 61 examplePublicKey.N = 1 ∧
      ∃ e, NewInt examplePublicKey (-1000) (.ok 61) = .ok e ∧
        ∀ (s : Store) (z : Ref), s z = e →
          ∃ s1, Decrypt s z (examplePrivateKey 3000) = .ok (2127, s1) := by
  obtain ⟨l, u, hk⟩ := exampleKey_good 3000
  obtain ⟨c, he, hc⟩ := NewInt_encodes hk (r := 61) (x := -1000) (by decide) (by decide)
  refine ⟨NewKeyPair_example 3000, by decide, by decide, by decide, _, he, ?_⟩
  intro s z hz
  refine ⟨setCipher s z 2127, ?_⟩
  rw [Decrypt_encodes hk hz hc]
  rfl

/-- C16, amended (threshold rule).  Under a key pair built from two distinct odd primes of
the same bit length whose threshold `t` is below `N`, for a blinding value prime to `N` and a
plaintext `x` with `|x| < t`: `Decrypt` of the encryption returns `x` when `x ≥ 0` or
`t < x + N`, and returns `x + N` for a negative `x` with `x + N ≤ t`; it returns `x` for
every such `x` when `2 * t ≤ N`. -/
theorem threshold_rule (keyLength t : Int) (p1 p2 : Nat) (r x : Int)
    (hp1 : p1.Prime) (hp2 : p2.Prime) (hne : p1 ≠ p2) (ho1 : Odd p1) (ho2 : Odd p2)
    (hsz : p1.size = p2.size) (htN : t < (p1 : Int) * p2)
    (hr : Int.gcd r ((p1 : Int) * p2) = 1) (hx : |x| < t) :
    ∃ pk sk e, NewKeyPair keyLength t (.ok p1) (.ok p2) = .ok (pk, sk) ∧
      NewInt pk x (.ok r) = .ok e ∧
      ∀ (s : Store) (z : Ref), s z = e →
        (∃ s1, Decrypt s z sk =
          .ok (if x < 0 ∧ x + (p1 : Int) * p2 ≤ t then x + (p1 : Int) * p2 else x, s1)) ∧
        (2 * t ≤ (p1 : Int) * p2 → ∃ s1, Decrypt s z sk = .ok (x, s1)) := by
  obtain ⟨pk, sk, l, u, hkey, hk, hN, hT⟩ := NewKeyPair_good keyLength t hp1 hp2 hne ho1 ho2 hsz
  rw [← hN] at htN hr ⊢
  have hxN : x < pk.N := by
    have := abs_lt.mp hx
    omega
  obtain ⟨c, he, hc⟩ := NewInt_encodes hk hr hxN
  refine ⟨pk, sk, _, hkey, he, ?_⟩
  intro s z hz
  constructor
  · rw [Decrypt_encodes hk hz hc, hT, signedValue_of_lt htN hx]
    exact ⟨_, rfl⟩
  · intro h2
    refine ⟨setCipher s z x, ?_⟩
    rw [Decrypt_encodes hk hz hc, hT, signedValue_eq h2 hx]

/-- Function `NewInt` under a public key with `1 < N`, `NSq = N * N`, `G = N + 1`, for a
plaintext below `N`: the cipher it returns. -/
theorem NewInt_value {pk : PublicKey} (hN : 1 < pk.N) (hSq : pk.NSq = pk.N * pk.N)
    (hG : pk.G = pk.N + 1) (r : Int) {x : Int} (hx : x < pk.N) :
    NewInt pk x (.ok r) = .ok
      { Cipher := some ((pk.N + 1) ^ (x % pk.N).toNat % (pk.N * pk.N) *
          (r ^ pk.N.toNat % (pk.N * pk.N)) % (pk.N * pk.N)),
        PublicKey := some pk } := by
  have hNN : 0 < pk.N * pk.N := by nlinarith
  have hrn := bigExp_nonneg r pk.N (pk.N * pk.N) (by omega) hNN
  have hg := bigExp_generator hN x
  have hx0 : ¬ pk.N ≤ x := not_le.mpr hx
  simp only [NewInt, hx0, if_false, hSq, hG, hg, hrn, Option.getD_some, bigMod, hNN.ne', bind,
    Except.bind, pure, Except.pure]

/-- Euler's totient of a product of two distinct primes. -/
theorem totient_of_primes {p q : Nat} (hp : p.Prime) (hq : q.Prime) (hne : p ≠ q) :
    Nat.totient (p * q) = (p - 1) * (q - 1) := by
  rw [Nat.totient_mul ((Nat.coprime_primes hp hq).mpr hne), Nat.totient_prime hp,
    Nat.totient_prime hq]

/-- Raising to the power `N = p * q` is injective on the residues prime to `N`, for distinct
odd primes of the same bit length. -/
theorem pow_modulus_injective {p q : Nat} (hp : p.Prime) (hq : q.Prime) (hne : p ≠ q)
    (hop : Odd p) (hoq : Odd q) (hsz : p.size = q.size) {r1 r2 : Int}
    (h1 : Int.gcd r1 ((p : Int) * q) = 1) (h2 : Int.gcd r2 ((p : Int) * q) = 1)
    (h : r1 ^ (p * q) ≡ r2 ^ (p * q) [ZMOD (p : Int) * q]) :
    r1 ≡ r2 [ZMOD (p : Int) * q] := by
  have hcop := coprime_of_primes hp hq hne hop hoq hsz
  have hp2 := hp.two_le
  have hq2 := hq.two_le
  have hp3 : 3 ≤ p := by
    obtain ⟨a, ha⟩ := hop
    omega
  have hq3 : 3 ≤ q := by
    obtain ⟨a, ha⟩ := hoq
    omega
  have hL : 1 < (p - 1) * (q - 1) := by
    have a1 : 2 ≤ p - 1 := by omega
    have a2 : 2 ≤ q - 1 := by omega
    nlinarith
  obtain ⟨m, hm⟩ := Nat.exists_mul_emod_eq_one_of_coprime hcop.symm hL
  have hdiv : p * q * m = (p - 1) * (q - 1) * (p * q * m / ((p - 1) * (q - 1))) + 1 := by
    have := Nat.div_add_mod (p * q * m) ((p - 1) * (q - 1))
    omega
  have hcast : ((p * q : Nat) : Int) = (p : Int) * q := by push_cast; rfl
  have hpos : 0 < p * q := Nat.mul_pos hp.pos hq.pos
  have key : ∀ r : Int, Int.gcd r ((p : Int) * q) = 1 →
      (r ^ (p * q)) ^ m ≡ r [ZMOD (p : Int) * q] := by
    intro r hr
    have hr1 : IsCoprime r ((p * q : Nat) : Int) := by
      rw [hcast]
      exact Int.gcd_eq_one_iff_coprime.mp hr
    have he := int_pow_totient hpos hr1
    rw [totient_of_primes hp hq hne, hcast] at he
    rw [← pow_mul, hdiv, pow_succ, pow_mul]
    have := (he.pow (p * q * m / ((p - 1) * (q - 1)))).mul_right r
    simpa using this
  exact ((key r1 h1).symm.trans (h.pow m)).trans (key r2 h2)

/-- C17 (non-deterministic encryption).  Under a key pair built from two distinct odd primes
of the same bit length, for a plaintext `x < N` and two different blinding values in
`(0, N)`, both prime to `N`: the two ciphers that `NewInt` returns are different integers,
and, when `|x| < t` and `2 * t ≤ N`, `Decrypt` returns `x` on both. -/
theorem encryption_nondeterministic (keyLength t : Int) (p1 p2 : Nat) (r1 r2 x : Int)
    (hp1 : p1.Prime) (hp2 : p2.Prime) (hne : p1 ≠ p2) (ho1 : Odd p1) (ho2 : Odd p2)
    (hsz : p1.size = p2.size)
    (hr1 : Int.gcd r1 ((p1 : Int) * p2) = 1) (hr2 : Int.gcd r2 ((p1 : Int) * p2) = 1)
    (h10 : 0 < r1) (h1N : r1 < (p1 : Int) * p2) (h20 : 0 < r2) (h2N : r2 < (p1 : Int) * p2)
    (hr : r1 ≠ r2) (hx : x < (p1 : Int) * p2) :
    ∃ pk sk c1 c2, NewKeyPair keyLength t (.ok p1) (.ok p2) = .ok (pk, sk) ∧
      NewInt pk x (.ok r1) = .ok ⟨some c1, some pk⟩ ∧
      NewInt pk x (.ok r2) = .ok ⟨some c2, some pk⟩ ∧ c1 ≠ c2 ∧
      (|x| < t → 2 * t ≤ (p1 : Int) * p2 → ∀ (s : Store) (z : Ref),
        s z = ⟨some c1, some pk⟩ ∨ s z = ⟨some c2, some pk⟩ →
          ∃ s1, Decrypt s z sk = .ok (x, s1)) := by
  obtain ⟨pk, sk, l, u, hkey, hk, hN, hT⟩ := NewKeyPair_good keyLength t hp1 hp2 hne ho1 ho2 hsz
  have hinj := pow_modulus_injective hp1 hp2 hne ho1 ho2 hsz hr1 hr2
  rw [← hN] at hr1 hr2 h1N h2N hx hinj ⊢
  have hN1 := hk.N_gt
  have hNN : 0 < pk.N * pk.N := by nlinarith
  have hv1 := NewInt_value hN1 hk.NSq_eq hk.G_eq r1 hx
  have hv2 := NewInt_value hN1 hk.NSq_eq hk.G_eq r2 hx
  obtain ⟨c1, he1, hc1⟩ := NewInt_encodes hk hr1 hx
  obtain ⟨c2, he2, hc2⟩ := NewInt_encodes hk hr2 hx
  have hc1v : c1 = (pk.N + 1) ^ (x % pk.N).toNat % (pk.N * pk.N) *
      (r1 ^ pk.N.toNat % (pk.N * pk.N)) % (pk.N * pk.N) := by
    rw [hv1] at he1
    simp only [Except.ok.injEq, EncryptedInt.mk.injEq, Option.some.injEq, and_true] at he1
    exact he1.symm
  have hc2v : c2 = (pk.N + 1) ^ (x % pk.N).toNat % (pk.N * pk.N) *
      (r2 ^ pk.N.toNat % (pk.N * pk.N)) % (pk.N * pk.N) := by
    rw [hv2] at he2
    simp only [Except.ok.injEq, EncryptedInt.mk.injEq, Option.some.injEq, and_true] at he2
    exact he2.symm
  refine ⟨pk, sk, c1, c2, hkey, he1, he2, ?_, ?_⟩
  · intro hcc
    apply hr
    -- the generator part is invertible modulo N * N
    set j : Nat := (x % pk.N).toNat with hj
    have hg1 : (pk.N + 1) ^ j * (1 - pk.N) ^ j ≡ 1 [ZMOD pk.N * pk.N] := by
      rw [← mul_pow]
      have e : (pk.N + 1) * (1 - pk.N) ≡ 1 [ZMOD pk.N * pk.N] := by
        apply Int.modEq_iff_dvd.mpr
        exact ⟨1, by ring⟩
      simpa using e.pow j
    have hprod : (pk.N + 1) ^ j * r1 ^ pk.N.toNat ≡ (pk.N + 1) ^ j * r2 ^ pk.N.toNat
        [ZMOD pk.N * pk.N] := by
      have a1 : (pk.N + 1) ^ j % (pk.N * pk.N) * (r1 ^ pk.N.toNat % (pk.N * pk.N)) ≡
          (pk.N + 1) ^ j * r1 ^ pk.N.toNat [ZMOD pk.N * pk.N] :=
        (Int.mod_modEq _ _).mul (Int.mod_modEq _ _)
      have a2 : (pk.N + 1) ^ j % (pk.N * pk.N) * (r2 ^ pk.N.toNat % (pk.N * pk.N)) ≡
          (pk.N + 1) ^ j * r2 ^ pk.N.toNat [ZMOD pk.N * pk.N] :=
        (Int.mod_modEq _ _).mul (Int.mod_modEq _ _)
      have a3 : (pk.N + 1) ^ j % (pk.N * pk.N) * (r1 ^ pk.N.toNat % (pk.N * pk.N)) ≡
          (pk.N + 1) ^ j % (pk.N * pk.N) * (r2 ^ pk.N.toNat % (pk.N * pk.N))
          [ZMOD pk.N * pk.N] := by
        have : c1 = c2 := hcc
        rw [hc1v, hc2v] at this
        exact this
      exact (a1.symm.trans a3).trans a2
    have hpow : r1 ^ pk.N.toNat ≡ r2 ^ pk.N.toNat [ZMOD pk.N * pk.N] := by
      have b1 := hprod.mul_left ((1 - pk.N) ^ j)
      have b2 : ∀ y : Int, (1 - pk.N) ^ j * ((pk.N + 1) ^ j * y) ≡ y [ZMOD pk.N * pk.N] := by
        intro y
        have := hg1.mul_right y
        have e : (1 - pk.N) ^ j * ((pk.N + 1) ^ j * y) = (pk.N + 1) ^ j * (1 - pk.N) ^ j * y := by
          ring
        rw [e]
        simpa using this
      exact ((b2 _).symm.trans b1).trans (b2 _)
    have hpowN : r1 ^ pk.N.toNat ≡ r2 ^ pk.N.toNat [ZMOD pk.N] := hpow.of_mul_right _
    have htn : pk.N.toNat = p1 * p2 := by
      rw [hN]
      have : ((p1 : Int) * p2) = ((p1 * p2 : Nat) : Int) := by push_cast; rfl
      rw [this]
      exact Int.toNat_ofNat _
    rw [htn] at hpowN
    have hmod := hinj hpowN
    have e1 : r1 % pk.N = r1 := Int.emod_eq_of_lt h10.le h1N
    have e2 : r2 % pk.N = r2 := Int.emod_eq_of_lt h20.le h2N
    have : r1 % pk.N = r2 % pk.N := hmod
    rw [e1, e2] at this
    exact this
  · intro hxt ht s z hz
    refine ⟨setCipher s z x, ?_⟩
    rcases hz with hz | hz
    · rw [Decrypt_encodes hk hz hc1, hT, signedValue_eq ht hxt]
    · rw [Decrypt_encodes hk hz hc2, hT, signedValue_eq ht hxt]

/-- C18 (negative plaintexts are encrypted as their residue modulo `N`).  For a public key
with `2 ≤ N`, `NSq = N * N` and `G = N + 1`, every blinding value `r` and every negative
plaintext `x`: `NewInt` returns, its result is the result of `NewInt` on the residue of `x`
in `[0, N)` with the same `r`, and `Exp` gives `G ^ x mod NSq = (1 + (x mod N) * N) mod
NSq`. -/
theorem negative_plaintext_residue (pk : PublicKey) (r x : Int) (hN : 2 ≤ pk.N)
    (hSq : pk.NSq = pk.N * pk.N) (hG : pk.G = pk.N + 1) (hx : x < 0) :
    (∃ c, NewInt pk x (.ok r) = .ok ⟨some c, some pk⟩) ∧
      NewInt pk x (.ok r) = NewInt pk (x % pk.N) (.ok r) ∧
      bigExp pk.G x pk.NSq = some ((1 + (x % pk.N) * pk.N) % pk.NSq) := by
  have hN1 : 1 < pk.N := by omega
  have hm0 : 0 ≤ x % pk.N := Int.emod_nonneg _ (by omega)
  have hm1 : x % pk.N < pk.N := Int.emod_lt_of_pos _ (by omega)
  have h1 := NewInt_value hN1 hSq hG r (by omega : x < pk.N)
  have h2 := NewInt_value hN1 hSq hG r hm1
  rw [Int.emod_emod_of_dvd _ (dvd_refl pk.N)] at h2
  refine ⟨⟨_, h1⟩, h1.trans h2.symm, ?_⟩
  rw [hSq, hG, bigExp_generator hN1 x]
  have h3 := generator_pow pk.N (x % pk.N).toNat
  rw [Int.toNat_of_nonneg hm0] at h3
  exact congrArg some h3

/-- Function `NewKeyPair` on the 5-bit primes 29 and 31 with threshold 100. -/
theorem NewKeyPair_twentynine_thirtyone :
    NewKeyPair 5 100 (.ok 29) (.ok 31) =
      .ok (⟨5, 899, 808201, 900⟩, ⟨5, ⟨5, 899, 808201, 900⟩, 840, some 579, 100⟩) := by
  have h : bigModInverse 840 899 = .ok (some (579 % 899)) :=
    bigModInverse_eq (by decide) (by decide)
  simp only [NewKeyPair, bind, Except.bind, pure, Except.pure]
  norm_num
  rw [h]
  rfl

set_option exponentiation.threshold 4000 in
/-- C19, as stated, fails: 29 is a prime of 5 bits, the key pair of length 5 built from the
primes 29 and 31 has `N = 899`, and 29 is not prime to `N`; with the blinding value 29,
`NewInt` of the plaintext 5 returns the cipher 48778, which `Decrypt` reads as -65. -/
theorem prime_blinding_not_coprime :
    Nat.Prime 29 ∧ Nat.size 29 = 5 ∧
      NewKeyPair 5 100 (.ok 29) (.ok 31) =
        .ok (⟨5, 899, 808201, 900⟩, ⟨5, ⟨5, 899, 808201, 900⟩, 840, some 579, 100⟩) ∧
      Int.gcd 29 899 ≠ 1 ∧
      NewInt ⟨5, 899, 808201, 900⟩ 5 (.ok 29) = .ok ⟨some 48778, some ⟨5, 899, 808201, 900⟩⟩ ∧
      Decrypt (fun _ => ⟨some 48778, some ⟨5, 899, 808201, 900⟩⟩) 0
          ⟨5, ⟨5, 899, 808201, 900⟩, 840, some 579, 100⟩ =
        .ok (-65, setCipher (fun _ => ⟨some 48778, some ⟨5, 899, 808201, 900⟩⟩) 0 (-65)) :=
  ⟨by norm_num, by simp [Nat.size, Nat.binaryRec], NewKeyPair_twentynine_thirtyone, by decide,
    rfl, rfl⟩

/-- C19, amended (blinding value validity).  Under a key pair built from two distinct odd
primes `p1`, `p2` of the same bit length, every prime `r` other than `p1` and `p2` is prime
to `N = p1 * p2`, and for every such `r` and every plaintext `x` with `|x| < t`,
`2 * t ≤ N`, the cipher that `NewInt` produces decrypts back to `x`. -/
theorem blinding_prime_valid (keyLength t : Int) (p1 p2 r : Nat) (x : Int)
    (hp1 : p1.Prime) (hp2 : p2.Prime) (hne : p1 ≠ p2) (ho1 : Odd p1) (ho2 : Odd p2)
    (hsz : p1.size = p2.size) (hr : r.Prime) (hr1 : r ≠ p1) (hr2 : r ≠ p2)
    (ht : 2 * t ≤ (p1 : Int) * p2) (hx : |x| < t) :
    Int.gcd r ((p1 : Int) * p2) = 1 ∧
      ∃ pk sk e, NewKeyPair keyLength t (.ok p1) (.ok p2) = .ok (pk, sk) ∧
        NewInt pk x (.ok (r : Int)) = .ok e ∧
        ∀ (s : Store) (z : Ref), s z = e → ∃ s1, Decrypt s z sk = .ok (x, s1) := by
  have hcop : Nat.Coprime r (p1 * p2) :=
    Nat.Coprime.mul_right ((Nat.coprime_primes hr hp1).mpr hr1)
      ((Nat.coprime_primes hr hp2).mpr hr2)
  have hg : Int.gcd r ((p1 : Int) * p2) = 1 := by
    have h1 : IsCoprime (r : Int) ((p1 * p2 : Nat) : Int) := Nat.isCoprime_iff_coprime.mpr hcop
    rw [Nat.cast_mul] at h1
    exact Int.gcd_eq_one_iff_coprime.mpr h1
  refine ⟨hg, ?_⟩
  obtain ⟨pk, sk, l, u, hkey, hk, hN, hT⟩ := NewKeyPair_good keyLength t hp1 hp2 hne ho1 ho2 hsz
  rw [← hN] at ht hg
  obtain ⟨c, he, hc⟩ := NewInt_encodes hk hg (lt_modulus_of_abs_lt ht hx)
  refine ⟨pk, sk, _, hkey, he, ?_⟩
  intro s z hz
  refine ⟨setCipher s z x, ?_⟩
  rw [Decrypt_encodes hk hz hc, hT, signedValue_eq ht hx]

/-- C20 (`DivPlaintext` undoes `MulPlaintext`).  Under a key pair built from two distinct odd
primes of the same bit length (any threshold), for the object that `NewInt` returns with a
blinding value prime to `N`, and a scalar `k` prime to `N` whose low 64 bits are not all
zero: `MulPlaintext` by `k` into a fresh output, then `DivPlaintext` by `k` into another
fresh output, return, and `Decrypt` of the last output returns what `Decrypt` of the original
object returns. -/
theorem div_undoes_mul (keyLength t : Int) (p1 p2 : Nat) (r x k : Int)
    (hp1 : p1.Prime) (hp2 : p2.Prime) (hne : p1 ≠ p2) (ho1 : Odd p1) (ho2 : Odd p2)
    (hsz : p1.size = p2.size) (hr : Int.gcd r ((p1 : Int) * p2) = 1)
    (hx : x < (p1 : Int) * p2) (hkN : Int.gcd k ((p1 : Int) * p2) = 1)
    (hk64 : bigInt64 k ≠ 0) :
    ∃ pk sk e, NewKeyPair keyLength t (.ok p1) (.ok p2) = .ok (pk, sk) ∧
      NewInt pk x (.ok r) = .ok e ∧
      ∀ (s : Store) (a z1 z2 : Ref), a ≠ z1 → z1 ≠ z2 → a ≠ z2 → s a = e →
        ∃ s1 s2 s3 s4 v, MulPlaintext s z1 a k = .ok s1 ∧ DivPlaintext s1 z2 z1 k = .ok s2 ∧
          Decrypt s2 z2 sk = .ok (v, s3) ∧ Decrypt s a sk = .ok (v, s4) := by
  obtain ⟨pk, sk, l, u, hkey, hk, hN, -⟩ := NewKeyPair_good keyLength t hp1 hp2 hne ho1 ho2 hsz
  rw [← hN] at hr hx hkN
  have hN1 := hk.N_gt
  have hNN : 0 < pk.N * pk.N := by nlinarith
  obtain ⟨cx, hex, hcx⟩ := NewInt_encodes hk hr hx
  obtain ⟨a1, b1, hab⟩ := Int.gcd_eq_one_iff_coprime.mp hkN
  have hinvmod : k * a1 ≡ 1 [ZMOD pk.N] := by
    apply Int.modEq_iff_dvd.mpr
    exact ⟨b1, by linarith⟩
  have hinv := bigModInverse_eq (by omega : 0 < pk.N) hinvmod
  obtain ⟨v1, hv1, hve1⟩ := hcx.exp hNN hk.L_pos k
  obtain ⟨v2, hv2, hve2⟩ := hve1.exp hNN hk.L_pos (a1 % pk.N)
  have hcong : x * k * (a1 % pk.N) ≡ x [ZMOD pk.N] := by
    have e1 : x * k * (a1 % pk.N) ≡ x * k * a1 [ZMOD pk.N] := (Int.mod_modEq a1 pk.N).mul_left _
    have e2 : x * (k * a1) ≡ x * 1 [ZMOD pk.N] := hinvmod.mul_left _
    have e3 : x * k * a1 = x * (k * a1) := by ring
    rw [e3] at e1
    have := e1.trans e2
    rwa [mul_one] at this
  refine ⟨pk, sk, _, hkey, hex, ?_⟩
  intro s a z1 z2 haz1 hz12 haz2 ha
  obtain ⟨s1, h1, h1z, -⟩ := MulPlaintext_fresh (k := k) haz1 ha (by rw [hk.NSq_eq]; exact hv1)
  obtain ⟨s2, h2, h2z, -⟩ := DivPlaintext_fresh hz12 h1z hk64 hinv
    (by rw [hk.NSq_eq]; exact hv2)
  refine ⟨s1, s2, setCipher s2 z2 (signedValue pk.N sk.Threshold x),
    setCipher s a (signedValue pk.N sk.Threshold x), signedValue pk.N sk.Threshold x, h1, h2,
    ?_, ?_⟩
  · rw [Decrypt_encodes hk h2z hve2, signedValue_congr hcong]
  · rw [Decrypt_encodes hk ha hcx]

/-! ## Further instances -/

set_option exponentiation.threshold 4000 in
/-- Instance of C11: the private key built from the primes 53 and 59 (threshold 1000) and the
cipher 4484378. -/
theorem decrypt_formula_witness :
    ∃ v s1, Decrypt (fun _ => ⟨some 4484378, some examplePublicKey⟩) 0
        (examplePrivateKey 1000) = .ok (v, s1) ∧
      (specResidue 3127 9778129 3016 2141 4484378 ≤ 1000 →
        v = specResidue 3127 9778129 3016 2141 4484378) ∧
      (1000 < specResidue 3127 9778129 3016 2141 4484378 →
        v = specResidue 3127 9778129 3016 2141 4484378 - 3127) ∧
      ((0 ≤ v ∧ v ≤ 1000) ∨ (1000 - 3127 < v ∧ v < 0)) :=
  decrypt_formula (fun _ => ⟨some 4484378, some examplePublicKey⟩) 0 (examplePrivateKey 1000)
    4484378 2141 rfl rfl (by decide) (by decide) (by decide) (by decide) rfl

/-- Instance of C12: key length 6, threshold 1000, primes 53 and 59. -/
theorem key_derivation_witness :
    ∃ u : Int, NewKeyPair 6 1000 (.ok 53) (.ok 59) = .ok
        (⟨6, 3127, 9778129, 3128⟩, ⟨6, ⟨6, 3127, 9778129, 3128⟩, 3016, some u, 1000⟩) ∧
      0 ≤ u ∧ u < 3127 ∧ (3016 * u) % 3127 = 1 := by
  have h := key_derivation 6 1000 53 59 (by norm_num) (by norm_num) (by decide) (by decide)
    (by simp [Nat.size, Nat.binaryRec]) (by simp [Nat.size, Nat.binaryRec])
  norm_num at h
  exact h

/-- Instance of the amended C16: primes 53 and 59, threshold 3000, plaintext -1000. -/
theorem threshold_rule_witness :
    ∃ pk sk e, NewKeyPair 6 3000 (.ok 53) (.ok 59) = .ok (pk, sk) ∧
      NewInt pk (-1000) (.ok 61) = .ok e ∧
      ∀ (s : Store) (z : Ref), s z = e → ∃ s1, Decrypt s z sk = .ok (2127, s1) := by
  obtain ⟨pk, sk, e, h1, h2, h3⟩ := threshold_rule 6 3000 53 59 61 (-1000) (by norm_num)
    (by norm_num) (by decide) (by decide) (by decide) size_fiftythree_fiftynine (by norm_num)
    (by decide) (by decide)
  refine ⟨pk, sk, e, h1, h2, ?_⟩
  intro s z hz
  obtain ⟨s1, hs1⟩ := (h3 s z hz).1
  refine ⟨s1, ?_⟩
  rw [hs1]
  norm_num

/-- Instance of C17: primes 53 and 59, threshold 1000, plaintext 5, blinding values 61
and 2. -/
theorem encryption_nondeterministic_witness :
    ∃ pk sk c1 c2, NewKeyPair 6 1000 (.ok 53) (.ok 59) = .ok (pk, sk) ∧
      NewInt pk 5 (.ok 61) = .ok ⟨some c1, some pk⟩ ∧
      NewInt pk 5 (.ok 2) = .ok ⟨some c2, some pk⟩ ∧ c1 ≠ c2 := by
  obtain ⟨pk, sk, c1, c2, h1, h2, h3, h4, -⟩ := encryption_nondeterministic 6 1000 53 59 61 2 5
    (by norm_num) (by norm_num) (by decide) (by decide) (by decide) size_fiftythree_fiftynine
    (by decide) (by decide) (by decide) (by norm_num) (by decide) (by norm_num) (by decide)
    (by norm_num)
  exact ⟨pk, sk, c1, c2, h1, h2, h3, h4⟩

/-- Instance of C18: the public key of modulus 3127, blinding value 61, plaintext -3,
residue 3124. -/
theorem negative_plaintext_residue_witness :
    NewInt examplePublicKey (-3) (.ok 61) = NewInt examplePublicKey 3124 (.ok 61) :=
  (negative_plaintext_residue examplePublicKey 61 (-3) (by decide) rfl rfl (by decide)).2.1

/-- Instance of the amended C19: primes 53 and 59, blinding prime 61, plaintext -100. -/
theorem blinding_prime_valid_witness :
    Int.gcd (61 : Nat) (((53 : Nat) : Int) * (59 : Nat)) = 1 ∧
      ∃ pk sk e, NewKeyPair 6 1000 (.ok 53) (.ok 59) = .ok (pk, sk) ∧
        NewInt pk (-100) (.ok ((61 : Nat) : Int)) = .ok e ∧
        ∀ (s : Store) (z : Ref), s z = e → ∃ s1, Decrypt s z sk = .ok (-100, s1) :=
  blinding_prime_valid 6 1000 53 59 61 (-100) (by norm_num) (by norm_num) (by decide)
    (by decide) (by decide) size_fiftythree_fiftynine (by norm_num) (by decide) (by decide)
    (by norm_num) (by decide)

/-- Instance of C20: primes 53 and 59, threshold 1000, plaintext 900, scalar 7 (the product
6300 exceeds the threshold and the modulus 3127). -/
theorem div_undoes_mul_witness :
    ∃ pk sk e, NewKeyPair 6 1000 (.ok 53) (.ok 59) = .ok (pk, sk) ∧
      NewInt pk 900 (.ok 61) = .ok e ∧
      ∀ (s : Store) (a z1 z2 : Ref), a ≠ z1 → z1 ≠ z2 → a ≠ z2 → s a = e →
        ∃ s1 s2 s3 s4 v, MulPlaintext s z1 a 7 = .ok s1 ∧ DivPlaintext s1 z2 z1 7 = .ok s2 ∧
          Decrypt s2 z2 sk = .ok (v, s3) ∧ Decrypt s a sk = .ok (v, s4) :=
  div_undoes_mul 6 1000 53 59 61 900 7 (by norm_num) (by norm_num) (by decide) (by decide)
    (by decide) size_fiftythree_fiftynine (by decide) (by norm_num) (by decide) (by decide)

end Paillier
